import Mathlib

/-!
Verification development for the reader's annotation, search and autosave
subsystems.  Numbers that the program manipulates as IEEE doubles are
modelled as rationals (`ℚ`): all arithmetic in the relevant code is plain
comparison / min / max / addition on page-relative coordinates, and every
constant in the source is an exact decimal, so `ℚ` realises the same
algebra without rounding.  JavaScript strings are modelled as `String` or
`List Char`; `String.trim` of JavaScript is modelled by `jsTrim` below.
-/

/-! ## Rect geometry (src/unnamed/part_015, highlights module) -/

/-- `{x, y, w, h}` rectangle in unit page coordinates. -/
structure Rect where
  x : ℚ
  y : ℚ
  w : ℚ
  h : ℚ
deriving DecidableEq

/-- `const EPSILON = 0.002;` -/
def EPSILON : ℚ := 2 / 1000

/-- `const MIN_RECT_SIZE = 0.000001;` -/
def MIN_RECT_SIZE : ℚ := 1 / 1000000

/-- `clamp01(value) = Math.min(1, Math.max(0, value))` -/
def clamp01 (value : ℚ) : ℚ := min 1 (max 0 value)

/-- `normalizeRect` from the source: clamp both corners into `[0,1]` and
drop the rect when the clamped width or height is at most
`MIN_RECT_SIZE`.  The `Number.isFinite` guards of the source are vacuous
here because every `ℚ` models a finite double. -/
def normalizeRect (rect : Rect) : Option Rect :=
  let x1 := clamp01 rect.x
  let y1 := clamp01 rect.y
  let x2 := clamp01 (rect.x + rect.w)
  let y2 := clamp01 (rect.y + rect.h)
  let w := x2 - x1
  let h := y2 - y1
  if w ≤ MIN_RECT_SIZE ∨ h ≤ MIN_RECT_SIZE then none
  else some ⟨x1, y1, w, h⟩

/-- `rectsOverlap(a, b, epsilon)`: intersection on both axes after
shrinking by `epsilon`. -/
def rectsOverlap (a b : Rect) (epsilon : ℚ) : Bool :=
  let overlapX := decide (a.x < b.x + b.w - epsilon) && decide (b.x + epsilon < a.x + a.w)
  let overlapY := decide (a.y < b.y + b.h - epsilon) && decide (b.y + epsilon < a.y + a.h)
  overlapX && overlapY

/-- `rectsCloseOnSameLine(a, b, epsilon)`: the vertical spans overlap up to
`-epsilon` slack and the horizontal gap is at most `epsilon`. -/
def rectsCloseOnSameLine (a b : Rect) (epsilon : ℚ) : Bool :=
  let verticalOverlap := min (a.y + a.h) (b.y + b.h) - max a.y b.y
  if -epsilon ≤ verticalOverlap then
    decide (max a.x b.x - min (a.x + a.w) (b.x + b.w) ≤ epsilon)
  else false

/-- `mergePair(a, b)`: smallest rectangle covering both inputs. -/
def mergePair (a b : Rect) : Rect :=
  let x := min a.x b.x
  let y := min a.y b.y
  let r := max (a.x + a.w) (b.x + b.w)
  let bottom := max (a.y + a.h) (b.y + b.h)
  ⟨x, y, r - x, bottom - y⟩

/-- The merge predicate of the fixed-point loop in `mergeRects`. -/
def mergeTest (a b : Rect) : Bool :=
  rectsOverlap a b EPSILON || rectsCloseOnSameLine a b EPSILON

/-- The sort comparator `(a, b) => (a.y === b.y ? a.x - b.x : a.y - b.y)`
as a total preorder. -/
def rectLE (a b : Rect) : Prop := a.y < b.y ∨ (a.y = b.y ∧ a.x ≤ b.x)

instance : DecidableRel rectLE := fun a b => by
  unfold rectLE; infer_instance

instance : IsTotal Rect rectLE where
  total a b := by
    rcases lt_trichotomy a.y b.y with hy | hy | hy
    · exact Or.inl (Or.inl hy)
    · rcases le_total a.x b.x with hx | hx
      · exact Or.inl (Or.inr ⟨hy, hx⟩)
      · exact Or.inr (Or.inr ⟨hy.symm, hx⟩)
    · exact Or.inr (Or.inl hy)

instance : IsTrans Rect rectLE where
  trans a b c hab hbc := by
    rcases hab with hy | ⟨hy, hx⟩ <;> rcases hbc with hy' | ⟨hy', hx'⟩
    · exact Or.inl (hy.trans hy')
    · exact Or.inl (hy'.symm ▸ hy)
    · exact Or.inl (hy ▸ hy')
    · exact Or.inr ⟨hy.trans hy', hx.trans hx'⟩

/-- JavaScript's stable `Array.prototype.sort` with the comparator above,
modelled by stable insertion sort. -/
def sortRects (rects : List Rect) : List Rect := List.insertionSort rectLE rects

/-- Inner `j`-loop of a `mergeRects` pass: starting from the accumulator
`merged` (initially `current[i]`), scan the not-yet-consumed later rects in
order; each one satisfying the merge predicate is folded into the
accumulator and consumed, the others are kept for later `i` iterations. -/
def absorb (merged : Rect) : List Rect → Rect × List Rect
  | [] => (merged, [])
  | c :: cs =>
    if mergeTest merged c then absorb (mergePair merged c) cs
    else
      let rest := absorb merged cs
      (rest.1, c :: rest.2)

theorem absorb_snd_length (merged : Rect) (l : List Rect) :
    (absorb merged l).2.length ≤ l.length := by
  induction l generalizing merged with
  | nil => simp [absorb]
  | cons c cs ih =>
    by_cases hc : mergeTest merged c
    · simp only [absorb, hc, if_true]
      exact (ih (mergePair merged c)).trans (Nat.le_succ _)
    · simp only [absorb, hc, if_false, List.length_cons]
      exact Nat.succ_le_succ (ih merged)

/-- One pass (`for i` loop) of the fixed-point iteration in `mergeRects`. -/
def mergeStep : List Rect → List Rect
  | [] => []
  | r :: rest =>
    let p := absorb r rest
    p.1 :: mergeStep p.2
termination_by l => l.length
decreasing_by
  simp only [List.length_cons]
  exact Nat.lt_succ_of_le (absorb_snd_length _ _)

theorem mergeStep_nil : mergeStep [] = [] := by
  simp [mergeStep]

theorem mergeStep_cons (r : Rect) (rest : List Rect) :
    mergeStep (r :: rest) = (absorb r rest).1 :: mergeStep (absorb r rest).2 := by
  rw [mergeStep]

theorem mergeStep_length_le (l : List Rect) : (mergeStep l).length ≤ l.length := by
  match l with
  | [] => simp [mergeStep_nil]
  | r :: rest =>
    rw [mergeStep_cons]
    simpa using Nat.succ_le_succ
      ((mergeStep_length_le (absorb r rest).2).trans (absorb_snd_length r rest))
termination_by l.length
decreasing_by
  simp only [List.length_cons]
  exact Nat.lt_succ_of_le (absorb_snd_length _ _)

/-- The `while (changed)` loop of `mergeRects`.  A pass that merged at
least one pair consumes at least one rect, so `changed` is equivalent to
the pass output being strictly shorter; the pass output is re-sorted at
the end of every pass, exactly as in the source. -/
def mergeLoop (current : List Rect) : List Rect :=
  let next := sortRects (mergeStep current)
  if next.length < current.length then mergeLoop next else next
termination_by current.length
decreasing_by
  simpa using ‹_›

/-- `mergeRects(rects)` (the spec's `mergeAll`): normalize, drop invalid,
sort, then run the fixed-point merge loop. -/
def mergeRects (rects : List Rect) : List Rect :=
  let normalized := sortRects (rects.filterMap normalizeRect)
  if normalized.length ≤ 1 then normalized else mergeLoop normalized

/-- `anyOverlap(left, right)`: some rect of `left` overlaps some rect of
`right` at the fixed `EPSILON`. -/
def anyOverlap (left right : List Rect) : Bool :=
  left.any fun a => right.any fun b => rectsOverlap a b EPSILON

/-! ### Basic characterizations -/

theorem mergeLoop_eq (current : List Rect) :
    mergeLoop current =
      if (sortRects (mergeStep current)).length < current.length then
        mergeLoop (sortRects (mergeStep current))
      else sortRects (mergeStep current) := by
  rw [mergeLoop]

theorem rectsOverlap_iff (a b : Rect) (epsilon : ℚ) :
    rectsOverlap a b epsilon = true ↔
      (a.x < b.x + b.w - epsilon ∧ b.x + epsilon < a.x + a.w ∧
       a.y < b.y + b.h - epsilon ∧ b.y + epsilon < a.y + a.h) := by
  simp [rectsOverlap, and_assoc]

theorem rectsCloseOnSameLine_def (a b : Rect) (epsilon : ℚ) :
    rectsCloseOnSameLine a b epsilon =
      if -epsilon ≤ min (a.y + a.h) (b.y + b.h) - max a.y b.y then
        decide (max a.x b.x - min (a.x + a.w) (b.x + b.w) ≤ epsilon)
      else false := rfl

theorem rectsCloseOnSameLine_iff (a b : Rect) (epsilon : ℚ) :
    rectsCloseOnSameLine a b epsilon = true ↔
      (-epsilon ≤ min (a.y + a.h) (b.y + b.h) - max a.y b.y ∧
       max a.x b.x - min (a.x + a.w) (b.x + b.w) ≤ epsilon) := by
  rw [rectsCloseOnSameLine_def]
  split <;> simp_all

theorem rectsOverlap_true_symm {a b : Rect} {epsilon : ℚ}
    (h : rectsOverlap a b epsilon = true) : rectsOverlap b a epsilon = true := by
  rw [rectsOverlap_iff] at h ⊢
  obtain ⟨h1, h2, h3, h4⟩ := h
  exact ⟨by linarith, by linarith, by linarith, by linarith⟩

theorem rectsOverlap_comm (a b : Rect) (epsilon : ℚ) :
    rectsOverlap a b epsilon = rectsOverlap b a epsilon := by
  by_cases hab : rectsOverlap a b epsilon = true
  · rw [hab, rectsOverlap_true_symm hab]
  · by_cases hba : rectsOverlap b a epsilon = true
    · exact absurd (rectsOverlap_true_symm hba) hab
    · rw [Bool.not_eq_true] at hab hba
      rw [hab, hba]

theorem rectsCloseOnSameLine_comm (a b : Rect) (epsilon : ℚ) :
    rectsCloseOnSameLine a b epsilon = rectsCloseOnSameLine b a epsilon := by
  unfold rectsCloseOnSameLine
  rw [min_comm (a.y + a.h), max_comm a.y, min_comm (a.x + a.w), max_comm a.x]

theorem mergeTest_comm (a b : Rect) : mergeTest a b = mergeTest b a := by
  unfold mergeTest
  rw [rectsOverlap_comm, rectsCloseOnSameLine_comm]

/-! ### Canonical (post-normalization) rects -/

/-- A rect is canonical when it lies in the unit square and both sides
exceed `MIN_RECT_SIZE`; exactly the shape `normalizeRect` outputs. -/
def GoodRect (r : Rect) : Prop :=
  0 ≤ r.x ∧ 0 ≤ r.y ∧ r.x + r.w ≤ 1 ∧ r.y + r.h ≤ 1 ∧
    MIN_RECT_SIZE < r.w ∧ MIN_RECT_SIZE < r.h

theorem clamp01_mem (v : ℚ) : 0 ≤ clamp01 v ∧ clamp01 v ≤ 1 := by
  unfold clamp01
  constructor
  · exact le_min (by norm_num) (le_max_left 0 v)
  · exact min_le_left 1 _

theorem clamp01_of_mem {v : ℚ} (h0 : 0 ≤ v) (h1 : v ≤ 1) : clamp01 v = v := by
  unfold clamp01
  rw [max_eq_right h0, min_eq_right h1]

theorem normalizeRect_def (r : Rect) :
    normalizeRect r =
      if clamp01 (r.x + r.w) - clamp01 r.x ≤ MIN_RECT_SIZE ∨
          clamp01 (r.y + r.h) - clamp01 r.y ≤ MIN_RECT_SIZE then none
      else some ⟨clamp01 r.x, clamp01 r.y, clamp01 (r.x + r.w) - clamp01 r.x,
        clamp01 (r.y + r.h) - clamp01 r.y⟩ := rfl

theorem normalizeRect_good {r s : Rect} (h : normalizeRect r = some s) : GoodRect s := by
  rw [normalizeRect_def] at h
  split at h
  · exact absurd h (by simp)
  · rename_i hgt
    push_neg at hgt
    obtain ⟨hw, hh⟩ := hgt
    obtain ⟨c1, c2⟩ := clamp01_mem r.x
    obtain ⟨c3, c4⟩ := clamp01_mem r.y
    obtain ⟨c5, c6⟩ := clamp01_mem (r.x + r.w)
    obtain ⟨c7, c8⟩ := clamp01_mem (r.y + r.h)
    obtain rfl : s = ⟨clamp01 r.x, clamp01 r.y, clamp01 (r.x + r.w) - clamp01 r.x,
        clamp01 (r.y + r.h) - clamp01 r.y⟩ := by
      simpa [eq_comm] using h
    refine ⟨c1, c3, by simpa using c6, by simpa using c8, hw, hh⟩

theorem normalizeRect_of_good {s : Rect} (h : GoodRect s) : normalizeRect s = some s := by
  obtain ⟨h1, h2, h3, h4, h5, h6⟩ := h
  have hMw : (0:ℚ) < s.w := lt_trans (by norm_num [MIN_RECT_SIZE]) h5
  have hMh : (0:ℚ) < s.h := lt_trans (by norm_num [MIN_RECT_SIZE]) h6
  rw [normalizeRect_def]
  rw [clamp01_of_mem h1 (by linarith), clamp01_of_mem h2 (by linarith),
    clamp01_of_mem (by linarith) h3, clamp01_of_mem (by linarith) h4]
  rw [if_neg]
  · simp
  · push_neg
    constructor
    · simpa using by linarith
    · simpa using by linarith

theorem mergePair_good {a b : Rect} (ha : GoodRect a) (hb : GoodRect b) :
    GoodRect (mergePair a b) := by
  obtain ⟨a1, a2, a3, a4, a5, a6⟩ := ha
  obtain ⟨b1, b2, b3, b4, b5, b6⟩ := hb
  unfold mergePair
  refine ⟨le_min a1 b1, le_min a2 b2, ?_, ?_, ?_, ?_⟩ <;> simp only
  · have : max (a.x + a.w) (b.x + b.w) ≤ 1 := max_le a3 b3
    linarith [min_le_left a.x b.x, min_le_right a.x b.x]
  · have : max (a.y + a.h) (b.y + b.h) ≤ 1 := max_le a4 b4
    linarith [min_le_left a.y b.y, min_le_right a.y b.y]
  · have h1 : a.x + a.w ≤ max (a.x + a.w) (b.x + b.w) := le_max_left _ _
    have h2 : min a.x b.x ≤ a.x := min_le_left _ _
    linarith
  · have h1 : a.y + a.h ≤ max (a.y + a.h) (b.y + b.h) := le_max_left _ _
    have h2 : min a.y b.y ≤ a.y := min_le_left _ _
    linarith

/-! ### Rectangle containment -/

/-- `covers s r`: rectangle `s` contains rectangle `r`. -/
def covers (s r : Rect) : Prop :=
  s.x ≤ r.x ∧ s.y ≤ r.y ∧ r.x + r.w ≤ s.x + s.w ∧ r.y + r.h ≤ s.y + s.h

theorem covers_refl (r : Rect) : covers r r :=
  ⟨le_refl _, le_refl _, le_refl _, le_refl _⟩

theorem covers_trans {t s r : Rect} (hts : covers t s) (hsr : covers s r) : covers t r := by
  obtain ⟨h1, h2, h3, h4⟩ := hts
  obtain ⟨g1, g2, g3, g4⟩ := hsr
  exact ⟨h1.trans g1, h2.trans g2, g3.trans h3, g4.trans h4⟩

theorem mergePair_covers_left (a b : Rect) : covers (mergePair a b) a := by
  unfold mergePair covers
  refine ⟨min_le_left _ _, min_le_left _ _, ?_, ?_⟩ <;> simp only
  · linarith [le_max_left (a.x + a.w) (b.x + b.w), min_le_left a.x b.x]
  · linarith [le_max_left (a.y + a.h) (b.y + b.h), min_le_left a.y b.y]

theorem mergePair_covers_right (a b : Rect) : covers (mergePair a b) b := by
  unfold mergePair covers
  refine ⟨min_le_right _ _, min_le_right _ _, ?_, ?_⟩ <;> simp only
  · linarith [le_max_right (a.x + a.w) (b.x + b.w), min_le_right a.x b.x]
  · linarith [le_max_right (a.y + a.h) (b.y + b.h), min_le_right a.y b.y]

/-- A point of the page, used to express coverage claims. -/
def pointIn (px py : ℚ) (r : Rect) : Prop :=
  r.x ≤ px ∧ px ≤ r.x + r.w ∧ r.y ≤ py ∧ py ≤ r.y + r.h

theorem covers_pointIn {s r : Rect} {px py : ℚ} (hc : covers s r) (hp : pointIn px py r) :
    pointIn px py s := by
  obtain ⟨h1, h2, h3, h4⟩ := hc
  obtain ⟨g1, g2, g3, g4⟩ := hp
  exact ⟨h1.trans g1, g2.trans h3, h2.trans g3, g4.trans h4⟩

/-- Growing the left rect preserves the overlap test. -/
theorem rectsOverlap_mono_left {s r t : Rect} {epsilon : ℚ} (hc : covers s r)
    (h : rectsOverlap r t epsilon = true) : rectsOverlap s t epsilon = true := by
  rw [rectsOverlap_iff] at h ⊢
  obtain ⟨c1, c2, c3, c4⟩ := hc
  obtain ⟨h1, h2, h3, h4⟩ := h
  exact ⟨by linarith, by linarith, by linarith, by linarith⟩

/-! ### absorb invariants -/

theorem absorb_cons_pos {m c : Rect} (cs : List Rect) (h : mergeTest m c = true) :
    absorb m (c :: cs) = absorb (mergePair m c) cs := by
  simp [absorb, h]

theorem absorb_cons_neg {m c : Rect} (cs : List Rect) (h : mergeTest m c = false) :
    absorb m (c :: cs) = ((absorb m cs).1, c :: (absorb m cs).2) := by
  simp [absorb, h]

theorem absorb_fst_covers (m : Rect) (l : List Rect) : covers (absorb m l).1 m := by
  induction l generalizing m with
  | nil => exact covers_refl m
  | cons c cs ih =>
    by_cases hc : mergeTest m c = true
    · rw [absorb_cons_pos cs hc]
      exact covers_trans (ih (mergePair m c)) (mergePair_covers_left m c)
    · rw [absorb_cons_neg cs (Bool.not_eq_true _ ▸ hc)]
      exact ih m

theorem absorb_mem_covers (m : Rect) (l : List Rect) :
    ∀ c ∈ l, c ∈ (absorb m l).2 ∨ covers (absorb m l).1 c := by
  induction l generalizing m with
  | nil => simp
  | cons c cs ih =>
    intro d hd
    by_cases hc : mergeTest m c = true
    · rw [absorb_cons_pos cs hc]
      rcases List.mem_cons.mp hd with rfl | hd'
      · exact Or.inr (covers_trans (absorb_fst_covers (mergePair m d) cs)
          (mergePair_covers_right m d))
      · exact ih (mergePair m c) d hd'
    · rw [absorb_cons_neg cs (Bool.not_eq_true _ ▸ hc)]
      rcases List.mem_cons.mp hd with rfl | hd'
      · exact Or.inl (List.mem_cons_self _ _)
      · rcases ih m d hd' with h2 | h2
        · exact Or.inl (List.mem_cons_of_mem _ h2)
        · exact Or.inr h2

theorem absorb_snd_mem (m : Rect) (l : List Rect) :
    ∀ c ∈ (absorb m l).2, c ∈ l := by
  induction l generalizing m with
  | nil => simp [absorb]
  | cons c cs ih =>
    intro d hd
    by_cases hc : mergeTest m c = true
    · rw [absorb_cons_pos cs hc] at hd
      exact List.mem_cons_of_mem _ (ih (mergePair m c) d hd)
    · rw [absorb_cons_neg cs (Bool.not_eq_true _ ▸ hc)] at hd
      rcases List.mem_cons.mp hd with rfl | hd'
      · exact List.mem_cons_self _ _
      · exact List.mem_cons_of_mem _ (ih m d hd')

theorem absorb_fst_good {m : Rect} {l : List Rect} (hm : GoodRect m)
    (hl : ∀ c ∈ l, GoodRect c) : GoodRect (absorb m l).1 := by
  induction l generalizing m with
  | nil => exact hm
  | cons c cs ih =>
    by_cases hc : mergeTest m c = true
    · rw [absorb_cons_pos cs hc]
      exact ih (mergePair_good hm (hl c (List.mem_cons_self _ _)))
        fun d hd => hl d (List.mem_cons_of_mem _ hd)
    · rw [absorb_cons_neg cs (Bool.not_eq_true _ ▸ hc)]
      exact ih hm fun d hd => hl d (List.mem_cons_of_mem _ hd)

theorem absorb_of_no_test {m : Rect} {l : List Rect}
    (h : ∀ c ∈ l, mergeTest m c = false) : absorb m l = (m, l) := by
  induction l with
  | nil => rfl
  | cons c cs ih =>
    rw [absorb_cons_neg cs (h c (List.mem_cons_self _ _))]
    rw [ih fun d hd => h d (List.mem_cons_of_mem _ hd)]

theorem absorb_len_eq {m : Rect} {l : List Rect}
    (h : (absorb m l).2.length = l.length) : ∀ c ∈ l, mergeTest m c = false := by
  induction l generalizing m with
  | nil => simp
  | cons c cs ih =>
    by_cases hc : mergeTest m c = true
    · rw [absorb_cons_pos cs hc] at h
      have hle := absorb_snd_length (mergePair m c) cs
      simp only [List.length_cons] at h
      exact absurd h (by omega)
    · intro d hd
      rw [absorb_cons_neg cs (Bool.not_eq_true _ ▸ hc)] at h
      simp only [List.length_cons, Nat.succ.injEq] at h
      rcases List.mem_cons.mp hd with rfl | hd'
      · exact Bool.not_eq_true _ ▸ hc
      · exact ih h d hd'

/-! ### mergeStep invariants -/

theorem mergeStep_covers (l : List Rect) : ∀ x ∈ l, ∃ s ∈ mergeStep l, covers s x := by
  match l with
  | [] => simp
  | r :: rest =>
    intro x hx
    rw [mergeStep_cons]
    rcases List.mem_cons.mp hx with rfl | hx'
    · exact ⟨(absorb x rest).1, List.mem_cons_self _ _, absorb_fst_covers x rest⟩
    · rcases absorb_mem_covers r rest x hx' with h2 | h2
      · obtain ⟨s, hs, hcov⟩ := mergeStep_covers (absorb r rest).2 x h2
        exact ⟨s, List.mem_cons_of_mem _ hs, hcov⟩
      · exact ⟨(absorb r rest).1, List.mem_cons_self _ _, h2⟩
termination_by l.length
decreasing_by
  simp only [List.length_cons]
  exact Nat.lt_succ_of_le (absorb_snd_length _ _)

theorem mergeStep_good (l : List Rect) (hl : ∀ r ∈ l, GoodRect r) :
    ∀ s ∈ mergeStep l, GoodRect s := by
  match l with
  | [] => simp [mergeStep_nil]
  | r :: rest =>
    intro s hs
    rw [mergeStep_cons] at hs
    rcases List.mem_cons.mp hs with rfl | hs'
    · exact absorb_fst_good (hl r (List.mem_cons_self _ _))
        fun c hc => hl c (List.mem_cons_of_mem _ hc)
    · exact mergeStep_good (absorb r rest).2
        (fun c hc => hl c (List.mem_cons_of_mem _ (absorb_snd_mem r rest c hc))) s hs'
termination_by l.length
decreasing_by
  simp only [List.length_cons]
  exact Nat.lt_succ_of_le (absorb_snd_length _ _)

/-- Pairs that the fixed point may no longer merge. -/
def noMerge (a b : Rect) : Prop := mergeTest a b = false

theorem noMerge_symm {a b : Rect} (h : noMerge a b) : noMerge b a := by
  unfold noMerge at h ⊢
  rw [mergeTest_comm]
  exact h

theorem mergeStep_eq_of_length (l : List Rect) (h : (mergeStep l).length = l.length) :
    mergeStep l = l ∧ List.Pairwise noMerge l := by
  match l with
  | [] => exact ⟨mergeStep_nil, List.Pairwise.nil⟩
  | r :: rest =>
    rw [mergeStep_cons] at h ⊢
    simp only [List.length_cons, Nat.succ.injEq] at h
    have h1 : (mergeStep (absorb r rest).2).length ≤ (absorb r rest).2.length :=
      mergeStep_length_le _
    have h2 : (absorb r rest).2.length ≤ rest.length := absorb_snd_length r rest
    have hsnd : (absorb r rest).2.length = rest.length := by omega
    have hno : ∀ c ∈ rest, mergeTest r c = false := absorb_len_eq hsnd
    have habs : absorb r rest = (r, rest) := absorb_of_no_test hno
    rw [habs]
    have hlen : (mergeStep rest).length = rest.length := by
      rw [habs] at h
      exact h
    obtain ⟨hms, hpw⟩ := mergeStep_eq_of_length rest hlen
    exact ⟨by rw [hms], List.Pairwise.cons hno hpw⟩
termination_by l.length
decreasing_by
  simp only [List.length_cons]
  exact Nat.lt_succ_of_le (Nat.le_refl _)

theorem mergeStep_of_pairwise (l : List Rect) (h : List.Pairwise noMerge l) :
    mergeStep l = l := by
  match l with
  | [] => exact mergeStep_nil
  | r :: rest =>
    rw [mergeStep_cons]
    rcases List.pairwise_cons.mp h with ⟨hr, hrest⟩
    have habs : absorb r rest = (r, rest) := absorb_of_no_test hr
    rw [habs, mergeStep_of_pairwise rest hrest]
termination_by l.length
decreasing_by
  simp only [List.length_cons]
  exact Nat.lt_succ_of_le (Nat.le_refl _)

/-! ### sortRects facts -/

theorem sortRects_perm (l : List Rect) : (sortRects l).Perm l :=
  List.perm_insertionSort rectLE l

theorem sortRects_mem {x : Rect} (l : List Rect) : x ∈ sortRects l ↔ x ∈ l :=
  (sortRects_perm l).mem_iff

theorem sortRects_length (l : List Rect) : (sortRects l).length = l.length :=
  List.length_insertionSort rectLE l

theorem sortRects_sorted (l : List Rect) : List.Sorted rectLE (sortRects l) :=
  List.sorted_insertionSort rectLE l

theorem sortRects_of_sorted {l : List Rect} (h : List.Sorted rectLE l) : sortRects l = l :=
  List.Sorted.insertionSort_eq h

/-! ### mergeLoop invariants -/

theorem mergeLoop_covers (current : List Rect) :
    ∀ x ∈ current, ∃ s ∈ mergeLoop current, covers s x := by
  by_cases hlt : (sortRects (mergeStep current)).length < current.length
  · rw [mergeLoop_eq, if_pos hlt]
    intro x hx
    obtain ⟨s, hs, hc⟩ := mergeStep_covers current x hx
    obtain ⟨t, ht, hc2⟩ := mergeLoop_covers (sortRects (mergeStep current)) s
      ((sortRects_mem _).mpr hs)
    exact ⟨t, ht, covers_trans hc2 hc⟩
  · rw [mergeLoop_eq, if_neg hlt]
    intro x hx
    obtain ⟨s, hs, hc⟩ := mergeStep_covers current x hx
    exact ⟨s, (sortRects_mem _).mpr hs, hc⟩
termination_by current.length
decreasing_by
  exact hlt

theorem mergeLoop_good (current : List Rect) (hl : ∀ r ∈ current, GoodRect r) :
    ∀ s ∈ mergeLoop current, GoodRect s := by
  by_cases hlt : (sortRects (mergeStep current)).length < current.length
  · rw [mergeLoop_eq, if_pos hlt]
    exact mergeLoop_good (sortRects (mergeStep current))
      fun r hr => mergeStep_good current hl r ((sortRects_mem _).mp hr)
  · rw [mergeLoop_eq, if_neg hlt]
    intro s hs
    exact mergeStep_good current hl s ((sortRects_mem _).mp hs)
termination_by current.length
decreasing_by
  exact hlt

theorem mergeLoop_pairwise (current : List Rect) :
    List.Pairwise noMerge (mergeLoop current) := by
  by_cases hlt : (sortRects (mergeStep current)).length < current.length
  · rw [mergeLoop_eq, if_pos hlt]
    exact mergeLoop_pairwise (sortRects (mergeStep current))
  · rw [mergeLoop_eq, if_neg hlt]
    have hle := mergeStep_length_le current
    have hlen : (mergeStep current).length = current.length := by
      have := sortRects_length (mergeStep current)
      omega
    obtain ⟨hms, hpw⟩ := mergeStep_eq_of_length current hlen
    refine (List.Perm.pairwise_iff (fun h => noMerge_symm h) (sortRects_perm _)).mpr ?_
    rw [hms]
    exact hpw
termination_by current.length
decreasing_by
  exact hlt

theorem mergeLoop_sorted (current : List Rect) :
    List.Sorted rectLE (mergeLoop current) := by
  by_cases hlt : (sortRects (mergeStep current)).length < current.length
  · rw [mergeLoop_eq, if_pos hlt]
    exact mergeLoop_sorted (sortRects (mergeStep current))
  · rw [mergeLoop_eq, if_neg hlt]
    exact sortRects_sorted _
termination_by current.length
decreasing_by
  exact hlt

/-! ### mergeRects invariants and idempotence -/

theorem mergeRects_def (rects : List Rect) :
    mergeRects rects =
      if (sortRects (rects.filterMap normalizeRect)).length ≤ 1 then
        sortRects (rects.filterMap normalizeRect)
      else mergeLoop (sortRects (rects.filterMap normalizeRect)) := rfl

theorem pairwise_of_short {R : Rect → Rect → Prop} {l : List Rect} (h : l.length ≤ 1) :
    List.Pairwise R l := by
  match l with
  | [] => exact List.Pairwise.nil
  | [a] => exact List.pairwise_singleton R a
  | a :: b :: rest => simp at h

theorem mergeRects_covers {rects : List Rect} {r s : Rect} (hr : r ∈ rects)
    (hn : normalizeRect r = some s) : ∃ t ∈ mergeRects rects, covers t s := by
  have hmem : s ∈ sortRects (rects.filterMap normalizeRect) :=
    (sortRects_mem _).mpr (List.mem_filterMap.mpr ⟨r, hr, hn⟩)
  rw [mergeRects_def]
  split
  · exact ⟨s, hmem, covers_refl s⟩
  · exact mergeLoop_covers _ s hmem

theorem mergeRects_good (rects : List Rect) : ∀ t ∈ mergeRects rects, GoodRect t := by
  have hgood : ∀ x ∈ sortRects (rects.filterMap normalizeRect), GoodRect x := by
    intro x hx
    obtain ⟨r, _, hn⟩ := List.mem_filterMap.mp ((sortRects_mem _).mp hx)
    exact normalizeRect_good hn
  rw [mergeRects_def]
  split
  · exact hgood
  · exact mergeLoop_good _ hgood

theorem mergeRects_pairwise (rects : List Rect) :
    List.Pairwise noMerge (mergeRects rects) := by
  rw [mergeRects_def]
  split
  · exact pairwise_of_short (by assumption)
  · exact mergeLoop_pairwise _

theorem mergeRects_sorted (rects : List Rect) :
    List.Sorted rectLE (mergeRects rects) := by
  rw [mergeRects_def]
  split
  · exact sortRects_sorted _
  · exact mergeLoop_sorted _

theorem filterMap_normalize_self {l : List Rect} (h : ∀ r ∈ l, GoodRect r) :
    l.filterMap normalizeRect = l := by
  induction l with
  | nil => rfl
  | cons a rest ih =>
    rw [List.filterMap_cons, normalizeRect_of_good (h a (List.mem_cons_self _ _))]
    rw [ih fun r hr => h r (List.mem_cons_of_mem _ hr)]

theorem mergeRects_nonempty {rects : List Rect} {r s : Rect} (hr : r ∈ rects)
    (hn : normalizeRect r = some s) : mergeRects rects ≠ [] := by
  obtain ⟨t, ht, -⟩ := mergeRects_covers hr hn
  exact List.ne_nil_of_mem ht

theorem mergeRects_idem (rects : List Rect) :
    mergeRects (mergeRects rects) = mergeRects rects := by
  have hgood := mergeRects_good rects
  have hsorted := mergeRects_sorted rects
  have hpw := mergeRects_pairwise rects
  have h1 : (mergeRects rects).filterMap normalizeRect = mergeRects rects :=
    filterMap_normalize_self hgood
  have h2 : sortRects (mergeRects rects) = mergeRects rects := sortRects_of_sorted hsorted
  rw [mergeRects_def, h1, h2]
  split
  · rfl
  · have hms : mergeStep (mergeRects rects) = mergeRects rects := mergeStep_of_pairwise _ hpw
    rw [mergeLoop_eq, hms, h2, if_neg (lt_irrefl _)]

/-! ## String trimming and the reading-progress store
(src/electron/reader-progress-db.ts) -/

/-- JavaScript whitespace trim on character lists. -/
def trimChars (s : List Char) : List Char :=
  ((s.dropWhile Char.isWhitespace).reverse.dropWhile Char.isWhitespace).reverse

/-- Model of JavaScript's `String.prototype.trim`. -/
def jsTrim (s : String) : String := String.mk (trimChars s.data)

/-- `asNonEmptyString(value)`: the trimmed string when non-empty. -/
def asNonEmptyString (value : String) : Option String :=
  let trimmed := jsTrim value
  if 0 < trimmed.length then some trimmed else none

/-- `normalizeLastPage(value)`: `Math.floor` of a finite number when the
result is at least 1.  (`Number.isFinite` is vacuous over `ℚ`.) -/
def normalizeLastPage (value : ℚ) : Option ℤ :=
  let page := ⌊value⌋
  if 1 ≤ page then some page else none

/-- `normalizeLastPage` restricted to the integer values the program
actually stores in `INTEGER` columns (floor is the identity there). -/
def normalizeLastPageInt (value : ℤ) : Option ℤ :=
  if 1 ≤ value then some value else none

/-- A row of the `reading_progress` table. -/
structure ProgressRow where
  user_id : String
  book_id : String
  last_page : ℤ
  updated_at : ℤ
deriving DecidableEq

/-- `SELECT last_page FROM reading_progress WHERE user_id = ? AND book_id = ? LIMIT 1` -/
def findProgress (db : List ProgressRow) (u b : String) : Option ProgressRow :=
  db.find? fun row => row.user_id == u && row.book_id == b

/-- `ReaderProgressDb.getLastPage`. -/
def getLastPage (db : List ProgressRow) (userId bookId : String) : Option ℤ :=
  match asNonEmptyString userId, asNonEmptyString bookId with
  | some su, some sb =>
    match findProgress db su sb with
    | none => none
    | some row => normalizeLastPage (row.last_page : ℚ)
  | _, _ => none

/-- The upsert `INSERT ... ON CONFLICT(user_id, book_id) DO UPDATE`. -/
def upsertProgress (db : List ProgressRow) (row : ProgressRow) : List ProgressRow :=
  if db.any fun r => r.user_id == row.user_id && r.book_id == row.book_id then
    db.map fun r =>
      if r.user_id == row.user_id && r.book_id == row.book_id then
        { r with last_page := row.last_page, updated_at := row.updated_at }
      else r
  else db ++ [row]

/-- `ReaderProgressDb.setLastPage`; `now` stands for `Date.now()`. -/
def setLastPage (db : List ProgressRow) (userId bookId : String) (lastPage : ℚ)
    (now : ℤ) : List ProgressRow :=
  match asNonEmptyString userId, asNonEmptyString bookId, normalizeLastPage lastPage with
  | some su, some sb, some sp => upsertProgress db ⟨su, sb, sp, now⟩
  | _, _, _ => db

/-! ## Highlight storage (src/electron/reader-progress-db.ts and the
highlights IPC module, src/unnamed/part_015 / dist-electron highlights.js) -/

/-- A stored highlight record; rects are kept structured (the JSON
(de)serialization of the source is the identity on such rect lists). -/
structure Highlight where
  id : String
  userId : String
  bookId : String
  page : ℤ
  rects : List Rect
  createdAt : ℤ
  updatedAt : ℤ
deriving DecidableEq

/-- `ORDER BY created_at DESC` comparator of `listHighlightsStmt`. -/
def createdDesc (a b : Highlight) : Prop := b.createdAt ≤ a.createdAt

instance : DecidableRel createdDesc := fun a b => by
  unfold createdDesc; infer_instance

/-- `ReaderProgressDb.listHighlights`. -/
def listHighlights (db : List Highlight) (userId bookId : String) (page : ℤ) :
    List Highlight :=
  match asNonEmptyString userId, asNonEmptyString bookId, normalizeLastPageInt page with
  | some su, some sb, some sp =>
    List.insertionSort createdDesc
      (db.filter fun h => h.userId == su && h.bookId == sb && h.page == sp)
  | _, _, _ => []

/-- `ReaderProgressDb.deleteHighlights` (`DELETE ... WHERE user_id = ? AND
id IN (...)`). -/
def deleteHighlights (db : List Highlight) (userId : String) (ids : List String) :
    List Highlight :=
  match asNonEmptyString userId with
  | none => db
  | some su =>
    let safeIds := (ids.map jsTrim).filter fun id => 0 < id.length
    if safeIds.isEmpty then db
    else db.filter fun h => !(h.userId == su && safeIds.contains h.id)

/-- `ReaderProgressDb.deleteHighlight` (single row, returns
`changes > 0`). -/
def deleteHighlight (db : List Highlight) (userId highlightId : String) :
    Bool × List Highlight :=
  match asNonEmptyString userId, asNonEmptyString highlightId with
  | some su, some sid =>
    let remaining := db.filter fun h => !(h.id == sid && h.userId == su)
    (decide (remaining.length < db.length), remaining)
  | _, _ => (false, db)

/-- `ReaderProgressDb.insertHighlight`.  `Math.floor` on the integer
timestamps is the identity. -/
def insertHighlight (db : List Highlight) (userId bookId : String) (page : ℤ)
    (rects : List Rect) (id : String) (createdAt updatedAt : ℤ) :
    Option Highlight × List Highlight :=
  match asNonEmptyString userId, asNonEmptyString bookId, asNonEmptyString id,
      normalizeLastPageInt page with
  | some su, some sb, some sid, some sp =>
    if rects.length = 0 then (none, db)
    else
      let h : Highlight := ⟨sid, su, sb, sp, rects, createdAt, updatedAt⟩
      (some h, db ++ [h])
  | _, _, _, _ => (none, db)

/-- `ReaderProgressDb.createMergedHighlight`: runs the deletions and then
the insert inside one better-sqlite3 transaction.  Such a transaction
commits whenever the wrapped function returns (even returning `null`) and
rolls back only on a thrown exception; with well-formed statement
arguments and a fresh primary key nothing here throws, so the model
applies both steps unconditionally and reports the insert's result. -/
def dbCreateMergedHighlight (db : List Highlight) (userId bookId : String) (page : ℤ)
    (rects : List Rect) (id : String) (createdAt updatedAt : ℤ)
    (removeIds : List String) : Option Highlight × List Highlight :=
  let afterDelete := deleteHighlights db userId removeIds
  insertHighlight afterDelete userId bookId page rects id createdAt updatedAt

/-- The merge-reconciliation handler `createMergedHighlight` of the
highlights IPC module (src/unnamed/part_015, lines 146-174), starting
after the session, book-ownership and page checks; `newId` stands for
`randomUUID()` and `now` for `Date.now()`. -/
def createMergedHighlightOp (db : List Highlight) (userId bookId : String) (page : ℤ)
    (rawRects : List Rect) (newId : String) (now : ℤ) :
    Option Highlight × List Highlight :=
  let incoming := mergeRects rawRects
  if incoming.isEmpty then (none, db)
  else
    let existing := listHighlights db userId bookId page
    let overlapping := existing.filter fun h => anyOverlap incoming h.rects
    let overlapIds := overlapping.map fun h => h.id
    let allRectsToMerge := incoming ++ overlapping.flatMap fun h => h.rects
    let finalRects := mergeRects allRectsToMerge
    if finalRects.isEmpty then (none, db)
    else dbCreateMergedHighlight db userId bookId page finalRects newId now now overlapIds

/-- The `insertRawHighlight` handler (dist-electron/electron/highlights.js,
lines 202-233), after its session, book-ownership and page checks:
normalize the payload rects, reject an empty result, insert. -/
def insertRawHighlightOp (db : List Highlight) (userId bookId : String) (page : ℤ)
    (rawRects : List Rect) (newId : String) (now : ℤ) :
    Option Highlight × List Highlight :=
  let rects := rawRects.filterMap normalizeRect
  if rects.isEmpty then (none, db)
  else insertHighlight db userId bookId page rects newId now now

/-! ## Full-document search (src/src/lib/usePdfSearch.ts) -/

def PAGE_BATCH_SIZE : ℕ := 7

def MAX_RESULTS : ℕ := 200

def SNIPPET_RADIUS : ℕ := 40

/-- The `PdfSearchResult` record; `stop` is the source's `end` field
(`end` is reserved in Lean). -/
structure PdfSearchResult where
  page : ℕ
  snippet : List Char
  start : ℕ
  stop : ℕ
deriving DecidableEq

/-- `text.toLowerCase()` (length-preserving simple case mapping, as for
the characters the scan indexes into). -/
def toLowerStr (s : List Char) : List Char := s.map Char.toLower

/-- `buildSnippet(text, matchStart, matchEnd)`: bounded-context snippet
with ellipses; returns (snippet, start, end).  `Math.max(0, ·)` is
truncated subtraction on `ℕ`. -/
def buildSnippet (text : List Char) (matchStart matchEnd : ℕ) :
    List Char × ℕ × ℕ :=
  let snippetStart := matchStart - SNIPPET_RADIUS
  let snippetEnd := min text.length (matchEnd + SNIPPET_RADIUS)
  let lead := if 0 < snippetStart then '.' :: '.' :: '.' :: [] else []
  let trail := if snippetEnd < text.length then '.' :: '.' :: '.' :: [] else []
  let core := (text.drop snippetStart).take (snippetEnd - snippetStart)
  (lead ++ core ++ trail,
   lead.length + (matchStart - snippetStart),
   lead.length + (matchStart - snippetStart) + (matchEnd - matchStart))

/-- One result record as pushed by the scan loop. -/
def mkResult (pageNumber : ℕ) (text : List Char) (matchStart matchEnd : ℕ) :
    PdfSearchResult :=
  let s := buildSnippet text matchStart matchEnd
  ⟨pageNumber, s.1, s.2.1, s.2.2⟩

/-- Does `needle` occur in `hay` at index `i`? -/
def matchesAt (hay needle : List Char) (i : ℕ) : Bool :=
  (hay.drop i).take needle.length == needle

/-- `haystack.indexOf(needle, start)`: the least occurrence index that is
at least `start`. -/
def indexOfFrom (hay needle : List Char) (start : ℕ) : Option ℕ :=
  if hay.length < start + needle.length then none
  else if matchesAt hay needle start then some start
  else indexOfFrom hay needle (start + 1)
termination_by hay.length + 1 - start
decreasing_by
  omega

theorem indexOfFrom_eq (hay needle : List Char) (start : ℕ) :
    indexOfFrom hay needle start =
      if hay.length < start + needle.length then none
      else if matchesAt hay needle start then some start
      else indexOfFrom hay needle (start + 1) := by
  rw [indexOfFrom]

theorem indexOfFrom_ge {hay needle : List Char} {start i : ℕ}
    (h : indexOfFrom hay needle start = some i) : start ≤ i := by
  rw [indexOfFrom_eq] at h
  split at h
  · exact absurd h (by simp)
  · split at h
    · cases h
      exact Nat.le_refl _
    · exact (Nat.le_succ _).trans (indexOfFrom_ge h)
termination_by hay.length + 1 - start
decreasing_by
  omega

theorem indexOfFrom_le {hay needle : List Char} {start i : ℕ}
    (h : indexOfFrom hay needle start = some i) :
    i + needle.length ≤ hay.length := by
  rw [indexOfFrom_eq] at h
  split at h
  · exact absurd h (by simp)
  · split at h
    · cases h
      omega
    · exact indexOfFrom_le h
termination_by hay.length + 1 - start
decreasing_by
  omega

/-- Per-page `while` loop of the search run: accumulate one record per
match, resuming the scan at the end of each match, stopping at the end of
the haystack or at the global result cap. -/
def scanPage (pageNumber : ℕ) (text needle : List Char)
    (acc : List PdfSearchResult) (fromIndex : ℕ) : List PdfSearchResult :=
  if fromIndex < (toLowerStr text).length ∧ acc.length < MAX_RESULTS then
    match indexOfFrom (toLowerStr text) needle fromIndex with
    | none => acc
    | some matchStart =>
      scanPage pageNumber text needle
        (acc ++ [mkResult pageNumber text matchStart (matchStart + needle.length)])
        (matchStart + needle.length)
  else acc
termination_by MAX_RESULTS - acc.length
decreasing_by
  simp only [List.length_append, List.length_cons, List.length_nil]
  omega

theorem scanPage_eq (pageNumber : ℕ) (text needle : List Char)
    (acc : List PdfSearchResult) (fromIndex : ℕ) :
    scanPage pageNumber text needle acc fromIndex =
      if fromIndex < (toLowerStr text).length ∧ acc.length < MAX_RESULTS then
        match indexOfFrom (toLowerStr text) needle fromIndex with
        | none => acc
        | some matchStart =>
          scanPage pageNumber text needle
            (acc ++ [mkResult pageNumber text matchStart (matchStart + needle.length)])
            (matchStart + needle.length)
      else acc := by
  rw [scanPage]

/-- Pages `pageNumber = p .. numPages` of the search run's `for` loop,
carried out to the final value of `nextResults` (batch emissions do not
change the accumulator).  The loop breaks as soon as the cap is
reached. -/
def pagesLoop (pages : List (List Char)) (needle : List Char) (p : ℕ)
    (acc : List PdfSearchResult) : List PdfSearchResult :=
  if pages.length < p then acc
  else
    let acc2 := scanPage p (pages.getD (p - 1) []) needle acc 0
    if MAX_RESULTS ≤ acc2.length then acc2
    else pagesLoop pages needle (p + 1) acc2
termination_by pages.length + 1 - p
decreasing_by
  omega

theorem pagesLoop_eq (pages : List (List Char)) (needle : List Char) (p : ℕ)
    (acc : List PdfSearchResult) :
    pagesLoop pages needle p acc =
      if pages.length < p then acc
      else
        if MAX_RESULTS ≤ (scanPage p (pages.getD (p - 1) []) needle acc 0).length then
          scanPage p (pages.getD (p - 1) []) needle acc 0
        else pagesLoop pages needle (p + 1) (scanPage p (pages.getD (p - 1) []) needle acc 0) := by
  rw [pagesLoop]

/-- The completed search for a query: trim, lowercase, scan all pages in
order.  A blank query yields no results without scanning. -/
def pdfSearchRun (pages : List (List Char)) (query : List Char) :
    List PdfSearchResult :=
  let trimmedQuery := trimChars query
  if trimmedQuery.isEmpty then []
  else pagesLoop pages (toLowerStr trimmedQuery) 1 []

/-- Spec-side characterization (matching the spec's words): the positions
of the non-overlapping occurrences of `needle` in `hay` from `start`,
found left-to-right with the scan resuming past the end of each match. -/
def occurrencesFrom (hay needle : List Char) (start : ℕ) : List ℕ :=
  if needle.length = 0 then []
  else
    match hidx : indexOfFrom hay needle start with
    | none => []
    | some i => i :: occurrencesFrom hay needle (i + needle.length)
termination_by hay.length + 1 - start
decreasing_by
  have h1 := indexOfFrom_ge hidx
  have h2 := indexOfFrom_le hidx
  omega

theorem occurrencesFrom_zero {needle : List Char} (hay : List Char) (start : ℕ)
    (h0 : needle.length = 0) : occurrencesFrom hay needle start = [] := by
  rw [occurrencesFrom, if_pos h0]

theorem occurrencesFrom_none {hay needle : List Char} {start : ℕ}
    (h0 : ¬ needle.length = 0) (h : indexOfFrom hay needle start = none) :
    occurrencesFrom hay needle start = [] := by
  rw [occurrencesFrom, if_neg h0]
  split
  · rfl
  · rename_i j heq
    rw [h] at heq
    cases heq

theorem occurrencesFrom_some {hay needle : List Char} {start i : ℕ}
    (h0 : ¬ needle.length = 0) (h : indexOfFrom hay needle start = some i) :
    occurrencesFrom hay needle start =
      i :: occurrencesFrom hay needle (i + needle.length) := by
  rw [occurrencesFrom, if_neg h0]
  split
  · rename_i heq
    rw [h] at heq
    cases heq
  · rename_i j heq
    rw [h] at heq
    cases heq
    rfl

/-- Spec-side page-indexed occurrence list for pages `p .. numPages`:
pairs `(page, position)`, pages in ascending order. -/
def occsFrom (pages : List (List Char)) (needle : List Char) (p : ℕ) :
    List (ℕ × ℕ) :=
  if pages.length < p then []
  else
    (occurrencesFrom (toLowerStr (pages.getD (p - 1) [])) needle 0).map (fun i => (p, i))
      ++ occsFrom pages needle (p + 1)
termination_by pages.length + 1 - p
decreasing_by
  omega

theorem occsFrom_eq (pages : List (List Char)) (needle : List Char) (p : ℕ) :
    occsFrom pages needle p =
      if pages.length < p then []
      else
        (occurrencesFrom (toLowerStr (pages.getD (p - 1) [])) needle 0).map (fun i => (p, i))
          ++ occsFrom pages needle (p + 1) := by
  rw [occsFrom]

/-- The record built for the occurrence `(page, position)`. -/
def mkFromOcc (pages : List (List Char)) (needleLen : ℕ) (z : ℕ × ℕ) :
    PdfSearchResult :=
  mkResult z.1 (pages.getD (z.1 - 1) []) z.2 (z.2 + needleLen)

/-- Lexicographic order on `(page, position)` pairs: page ascending, then
position ascending. -/
def occLT (a b : ℕ × ℕ) : Prop := a.1 < b.1 ∨ (a.1 = b.1 ∧ a.2 < b.2)

/-! ## Token-based search cancellation (src/src/lib/usePdfSearch.ts,
effect at lines 109-185)

The run body is cut into its atomic segments: the code between two
asynchronous suspension points (`await getPageText`, `await nextTick`)
executes without interleaving.  Every write to the shared React state is
preceded, inside the same segment, by the `canceled /
searchTokenRef.current !== activeToken` staleness check of the source. -/

/-- The shared state a run writes: the token ref and the two pieces of
React state. -/
structure SearchShared where
  token : ℕ
  results : List PdfSearchResult
  isSearching : Bool
deriving DecidableEq

/-- Resume points of a run: suspended fetching text for page `p`,
suspended in the `nextTick` after emitting a batch at page `p`, or
returned. -/
inductive RunPc where
  | awaitText (p : ℕ)
  | awaitTick (p : ℕ)
  | finished
deriving DecidableEq

/-- A single `run()` invocation: its captured token, its closure's
`canceled` flag, its resume point and its local `nextResults`. -/
structure RunState where
  activeToken : ℕ
  canceled : Bool
  pc : RunPc
  acc : List PdfSearchResult
deriving DecidableEq

/-- `canceled || searchTokenRef.current !== activeToken`. -/
def staleCheck (r : RunState) (s : SearchShared) : Bool :=
  r.canceled || s.token != r.activeToken

/-- One atomic segment of a run.  `awaitText p` resumes with the text of
page `p`: scan the page, then either emit a batch (re-checking the token
first) and suspend on `nextTick`, or finish the loop (completion block,
re-checking the token before the final writes), or pass the loop-top
check and suspend fetching the next page.  `awaitTick p` resumes after
the batch yield: either break at the cap / end of pages into the
completion block, or continue at the loop top.  Stale segments return
without touching the shared state (the `finally` clause re-checks the
token before its own write). -/
def runStep (pages : List (List Char)) (needle : List Char) (r : RunState)
    (s : SearchShared) : RunState × SearchShared :=
  match r.pc with
  | RunPc.finished => (r, s)
  | RunPc.awaitText p =>
    let acc2 := scanPage p (pages.getD (p - 1) []) needle r.acc 0
    if p % PAGE_BATCH_SIZE = 0 ∨ MAX_RESULTS ≤ acc2.length then
      if staleCheck r s then ({ r with pc := RunPc.finished }, s)
      else ({ r with acc := acc2, pc := RunPc.awaitTick p },
        { s with results := acc2 })
    else if pages.length ≤ p then
      if staleCheck r s then ({ r with pc := RunPc.finished }, s)
      else ({ r with acc := acc2, pc := RunPc.finished },
        { s with results := acc2, isSearching := false })
    else
      if staleCheck r s then ({ r with pc := RunPc.finished }, s)
      else ({ r with acc := acc2, pc := RunPc.awaitText (p + 1) }, s)
  | RunPc.awaitTick p =>
    if MAX_RESULTS ≤ r.acc.length ∨ pages.length ≤ p then
      if staleCheck r s then ({ r with pc := RunPc.finished }, s)
      else ({ r with pc := RunPc.finished },
        { s with results := r.acc, isSearching := false })
    else
      if staleCheck r s then ({ r with pc := RunPc.finished }, s)
      else ({ r with pc := RunPc.awaitText (p + 1) }, s)

/-- The scenario of the claim: a run for the old query was spawned with
token 1 and is suspended before its first write; then a new query was
issued immediately, which runs the old effect's cleanup (setting its
`canceled` flag), bumps the token ref to 2 and spawns the new query's run
(setting `isSearching` synchronously). -/
structure CatDogState where
  shared : SearchShared
  cat : RunState
  dog : RunState
deriving DecidableEq

def catDogInit : CatDogState :=
  { shared := { token := 2, results := [], isSearching := true }
  , cat := { activeToken := 1, canceled := true, pc := RunPc.awaitText 1, acc := [] }
  , dog := { activeToken := 2, canceled := false, pc := RunPc.awaitText 1, acc := [] } }

/-- Resume the old query's run for one segment. -/
def catStep (pages : List (List Char)) (needleCat : List Char)
    (st : CatDogState) : CatDogState :=
  let rs := runStep pages needleCat st.cat st.shared
  { st with cat := rs.1, shared := rs.2 }

/-- Resume the new query's run for one segment. -/
def dogStep (pages : List (List Char)) (needleDog : List Char)
    (st : CatDogState) : CatDogState :=
  let rs := runStep pages needleDog st.dog st.shared
  { st with dog := rs.1, shared := rs.2 }

/-- Interleaving: either run resumes next. -/
inductive CatDogStep (pages : List (List Char)) (needleCat needleDog : List Char) :
    CatDogState → CatDogState → Prop
  | cat (st : CatDogState) : CatDogStep pages needleCat needleDog st (catStep pages needleCat st)
  | dog (st : CatDogState) : CatDogStep pages needleCat needleDog st (dogStep pages needleDog st)

/-- States reachable from the cat-then-immediately-dog initial state. -/
def CatDogReachable (pages : List (List Char)) (needleCat needleDog : List Char)
    (st : CatDogState) : Prop :=
  Relation.ReflTransGen (CatDogStep pages needleCat needleDog) catDogInit st

/-! ## Reading-position autosave (src/src/screens/PdfReaderScreen.tsx,
debounce effect at lines 2553-2579 and `flushLastPageSave`)

Virtual-time model.  A page change runs the effect: the previous
effect's cleanup clears the scheduled timer, then (when saving is
enabled and the trimmed ids are non-empty) a write of the new page is
scheduled `400ms` later.  A timer whose deadline has passed fires before
the next event is processed; its callback performs the durable
`setLastPage(user, book, Math.max(1, page))` write.  A flush (view
teardown, `handleBack`, or `beforeunload`) clears the timer and writes
`Math.max(1, latestPageRef.current)` immediately.  `canSave` stands for
`doc && progressLoaded && restoreApplied`, `idsOk` for the two trimmed
ids being non-empty; `writes` records the page values durably written. -/

def AUTOSAVE_DELAY : ℚ := 400

structure AutosaveState where
  pending : Option (ℚ × ℤ)
  writes : List ℤ
  latestPage : ℤ
deriving DecidableEq

inductive AutosaveEvent where
  | pageChange (page : ℤ) (t : ℚ)
  | flush (t : ℚ)
deriving DecidableEq

/-- Fire the scheduled timer if its deadline is at or before `t`. -/
def fireIfDue (t : ℚ) (s : AutosaveState) : AutosaveState :=
  match s.pending with
  | none => s
  | some pend =>
    if pend.1 ≤ t then
      { s with pending := none, writes := s.writes ++ [max 1 pend.2] }
    else s

def autosaveStep (canSave idsOk : Bool) (s : AutosaveState) :
    AutosaveEvent → AutosaveState
  | AutosaveEvent.pageChange page t =>
    let s1 := fireIfDue t s
    let s2 := { s1 with latestPage := page, pending := none }
    if canSave && idsOk then { s2 with pending := some (t + AUTOSAVE_DELAY, page) }
    else s2
  | AutosaveEvent.flush t =>
    let s1 := fireIfDue t s
    let s2 := { s1 with pending := none }
    if canSave && idsOk then { s2 with writes := s2.writes ++ [max 1 s2.latestPage] }
    else s2

/-- `latestPageRef` starts at 1; no timer, no writes. -/
def autosaveInit : AutosaveState := ⟨none, [], 1⟩

def runAutosave (canSave idsOk : Bool) (events : List AutosaveEvent) : AutosaveState :=
  events.foldl (autosaveStep canSave idsOk) autosaveInit

/-- End of the trace: a still-scheduled timer eventually fires. -/
def settleAutosave (s : AutosaveState) : AutosaveState :=
  match s.pending with
  | none => s
  | some pend => { s with pending := none, writes := s.writes ++ [max 1 pend.2] }

/-! ## Highlight delete with undo (src/src/screens/PdfReaderScreen.tsx,
`queueHighlightDeletion` / `undoHighlightDeletion` /
`finalizeHighlightDelete`, and the `insertRawHighlight` handler)

Virtual-time model over the durable store.  Queuing a deletion removes
the highlight from the visible list, records it in the pending list and
schedules a timer `5000ms` out whose callback performs the durable
delete.  A timer whose deadline has passed fires before the next event.
Undo clears the timer, and if the pending entry is still present removes
it and durably re-inserts the highlight's rects through the
`insertRawHighlight` handler under a fresh `randomUUID()` id.  (The
conditional refresh of the visible list after a successful undo is not
modelled: the claim concerns the timer and the durable store.) -/

def UNDO_GRACE : ℚ := 5000

structure UndoState where
  visible : List Highlight
  pending : List (String × Highlight)
  timers : List (String × ℚ × Highlight)
  store : List Highlight
deriving DecidableEq

/-- Fire every timer whose deadline is at or before `t`: each one drops
its timer and pending entries and runs `finalizeHighlightDelete`, the
durable single-row delete. -/
def fireDueUndoTimers (userId : String) (t : ℚ) (s : UndoState) : UndoState :=
  let due := s.timers.filter fun e => decide (e.2.1 ≤ t)
  let rest := s.timers.filter fun e => !(decide (e.2.1 ≤ t))
  due.foldl
    (fun st e =>
      { st with
        pending := st.pending.filter fun pr => !(pr.1 == e.1)
        store := (deleteHighlight st.store userId e.1).2 })
    { s with timers := rest }

/-- `queueHighlightDeletion(highlight)` at time `t`. -/
def queueDeletion (s : UndoState) (h : Highlight) (t : ℚ) : UndoState :=
  let safeId := jsTrim h.id
  if safeId.length = 0 then s
  else
    { visible := s.visible.filter fun item => !(item.id == safeId)
      pending := (s.pending.filter fun pr => !(pr.1 == safeId)) ++ [(safeId, h)]
      timers := (s.timers.filter fun e => !(e.1 == safeId)) ++ [(safeId, t + UNDO_GRACE, h)]
      store := s.store }

/-- `undoHighlightDeletion(pendingId)` at time `t`; `newId` stands for the
`randomUUID()` drawn inside the `insertRawHighlight` handler, `now` for
`Date.now()`. -/
def undoDeletion (userId : String) (s : UndoState) (pendingId newId : String)
    (now : ℤ) : UndoState :=
  let s1 := { s with timers := s.timers.filter fun e => !(e.1 == pendingId) }
  match s.pending.find? fun pr => pr.1 == pendingId with
  | none => s1
  | some pr =>
    let s2 := { s1 with pending := s1.pending.filter fun q => !(q.1 == pendingId) }
    let res := insertRawHighlightOp s2.store userId pr.2.bookId pr.2.page pr.2.rects newId now
    { s2 with store := res.2 }

inductive UndoEvent where
  | queue (h : Highlight) (t : ℚ)
  | undo (pendingId newId : String) (now : ℤ) (t : ℚ)

def undoSysStep (userId : String) (s : UndoState) : UndoEvent → UndoState
  | UndoEvent.queue h t => queueDeletion (fireDueUndoTimers userId t s) h t
  | UndoEvent.undo pid newId now t => undoDeletion userId (fireDueUndoTimers userId t s) pid newId now

def runUndoSys (userId : String) (init : UndoState) (events : List UndoEvent) : UndoState :=
  events.foldl (undoSysStep userId) init

/-! ## Claim theorems -/

/-- C2: `mergeAll` (the source's `mergeRects`) is idempotent: for every
list of rects `x`, `mergeAll(mergeAll(x)) = mergeAll(x)`. -/
theorem mergeAll_idempotent (x : List Rect) :
    mergeRects (mergeRects x) = mergeRects x :=
  mergeRects_idem x

/-- C9 counterexample: these two rects have disjoint vertical spans (the
first ends at `y = 1/10`, the second starts at `y = 101/1000`), yet
`rectsCloseOnSameLine` returns `true` at the engine's epsilon, because the
source accepts a vertical overlap of at least `-epsilon`, i.e. spans up to
`epsilon` apart. -/
theorem closeOnSameLine_counterexample :
    (Rect.mk 0 0 (1/2) (1/10)).y + (Rect.mk 0 0 (1/2) (1/10)).h <
        (Rect.mk (1/4) (101/1000) (1/2) (1/10)).y ∧
    rectsCloseOnSameLine (Rect.mk 0 0 (1/2) (1/10))
        (Rect.mk (1/4) (101/1000) (1/2) (1/10)) EPSILON = true := by
  constructor
  · norm_num
  · rw [rectsCloseOnSameLine_def]
    rw [if_pos (by norm_num [EPSILON, min_def, max_def])]
    simp only [decide_eq_true_eq]
    norm_num [EPSILON, min_def, max_def]

/-- C9 (amended): `closeOnSameLine(a, b, epsilon)` returns true exactly
when the vertical spans overlap **or are within `epsilon` of touching**
(vertical overlap at least `-epsilon`) and the horizontal gap is at most
`epsilon`; in particular, for every pair of rects whose vertical spans are
separated by more than `epsilon`, it returns false. -/
theorem closeOnSameLine_amended (a b : Rect) (epsilon : ℚ) :
    (rectsCloseOnSameLine a b epsilon = true ↔
      (-epsilon ≤ min (a.y + a.h) (b.y + b.h) - max a.y b.y ∧
       max a.x b.x - min (a.x + a.w) (b.x + b.w) ≤ epsilon)) ∧
    (epsilon < max a.y b.y - min (a.y + a.h) (b.y + b.h) →
      rectsCloseOnSameLine a b epsilon = false) := by
  refine ⟨rectsCloseOnSameLine_iff a b epsilon, fun hgap => ?_⟩
  rw [rectsCloseOnSameLine_def, if_neg (by linarith)]

/-- Witness for `closeOnSameLine_amended` at a concrete pair with a large
vertical separation. -/
theorem closeOnSameLine_amended_witness :
    rectsCloseOnSameLine (Rect.mk 0 0 (1/2) (1/10))
      (Rect.mk 0 (1/2) (1/2) (1/10)) EPSILON = false :=
  (closeOnSameLine_amended (Rect.mk 0 0 (1/2) (1/10))
      (Rect.mk 0 (1/2) (1/2) (1/10)) EPSILON).2
    (by norm_num [EPSILON, min_def, max_def])

/-! ### C10 helpers -/

theorem findProgress_map_update (db : List ProgressRow) (u b : String) (p n : ℤ)
    (hany : (db.any fun r => r.user_id == u && r.book_id == b) = true) :
    ∃ r, findProgress
        (db.map fun r =>
          if r.user_id == u && r.book_id == b then
            { r with last_page := p, updated_at := n }
          else r) u b = some r ∧ r.last_page = p := by
  induction db with
  | nil => simp at hany
  | cons r rest ih =>
    by_cases hm : (r.user_id == u && r.book_id == b) = true
    · refine ⟨{ r with last_page := p, updated_at := n }, ?_, rfl⟩
      unfold findProgress
      rw [List.map_cons, if_pos hm]
      exact List.find?_cons_of_pos _ hm
    · rw [List.any_cons, Bool.or_eq_true] at hany
      rcases hany with hany | hany
      · exact absurd hany hm
      · obtain ⟨row, hfind, hlast⟩ := ih hany
        refine ⟨row, ?_, hlast⟩
        unfold findProgress at hfind ⊢
        rw [List.map_cons, if_neg hm, List.find?_cons_of_neg _ (by exact hm)]
        exact hfind

theorem findProgress_append_self (db : List ProgressRow) (u b : String) (p n : ℤ)
    (hnone : (db.any fun r => r.user_id == u && r.book_id == b) = false) :
    findProgress (db ++ [ProgressRow.mk u b p n]) u b = some (ProgressRow.mk u b p n) := by
  induction db with
  | nil =>
    unfold findProgress
    simp
  | cons r rest ih =>
    rw [List.any_cons, Bool.or_eq_false_iff] at hnone
    unfold findProgress at ih ⊢
    rw [List.cons_append, List.find?_cons_of_neg _ (by simp [hnone.1])]
    exact ih hnone.2

theorem findProgress_upsert (db : List ProgressRow) (row : ProgressRow) :
    ∃ r, findProgress (upsertProgress db row) row.user_id row.book_id = some r ∧
      r.last_page = row.last_page := by
  unfold upsertProgress
  split
  · exact findProgress_map_update db row.user_id row.book_id row.last_page
      row.updated_at (by assumption)
  · rename_i hany
    rw [Bool.not_eq_true] at hany
    refine ⟨ProgressRow.mk row.user_id row.book_id row.last_page row.updated_at,
      findProgress_append_self db row.user_id row.book_id row.last_page
        row.updated_at hany, rfl⟩

theorem asNonEmptyString_pos {s : String} (h : (jsTrim s).length ≠ 0) :
    asNonEmptyString s = some (jsTrim s) := by
  unfold asNonEmptyString
  rw [if_pos (Nat.pos_of_ne_zero h)]

theorem asNonEmptyString_zero {s : String} (h : (jsTrim s).length = 0) :
    asNonEmptyString s = none := by
  unfold asNonEmptyString
  rw [if_neg (by omega)]

theorem normalizeLastPage_of_ge {page : ℚ} (h : 1 ≤ page) :
    normalizeLastPage page = some ⌊page⌋ := by
  unfold normalizeLastPage
  rw [if_pos (Int.le_floor.mpr (by exact_mod_cast h))]

theorem normalizeLastPage_of_lt {page : ℚ} (h : page < 1) :
    normalizeLastPage page = none := by
  unfold normalizeLastPage
  rw [if_neg]
  intro hge
  exact absurd (Int.le_floor.mp hge) (by push_neg; exact_mod_cast h)

/-- C10: reading-progress round-trip.  For ids that are non-empty after
trimming and a (finite) page at least 1, `setLastPage` then `getLastPage`
returns `⌊page⌋`; an empty-after-trim id or a page below 1 makes
`setLastPage` a no-op.  (A non-finite page is rejected by the same
`normalizeLastPage` guard in the source; non-finite doubles have no `ℚ`
counterpart, so that clause is outside this model.) -/
theorem lastPage_roundTrip (db : List ProgressRow) (userId bookId : String)
    (page : ℚ) (now : ℤ) :
    ((jsTrim userId).length ≠ 0 → (jsTrim bookId).length ≠ 0 → 1 ≤ page →
      getLastPage (setLastPage db userId bookId page now) userId bookId = some ⌊page⌋) ∧
    ((jsTrim userId).length = 0 ∨ (jsTrim bookId).length = 0 ∨ page < 1 →
      setLastPage db userId bookId page now = db) := by
  constructor
  · intro hu hb hp
    have hU := asNonEmptyString_pos hu
    have hB := asNonEmptyString_pos hb
    have hP := normalizeLastPage_of_ge hp
    obtain ⟨row, hfind, hlast⟩ :=
      findProgress_upsert db (ProgressRow.mk (jsTrim userId) (jsTrim bookId) ⌊page⌋ now)
    dsimp only at hfind hlast
    simp only [getLastPage, setLastPage, hU, hB, hP, hfind, hlast]
    unfold normalizeLastPage
    rw [Int.floor_intCast, if_pos (Int.le_floor.mpr (by exact_mod_cast hp))]
  · intro hbad
    unfold setLastPage
    rcases hbad with h | h | h
    · rw [asNonEmptyString_zero h]
    · rw [asNonEmptyString_zero h]
      cases asNonEmptyString userId <;> rfl
    · rw [normalizeLastPage_of_lt h]
      cases asNonEmptyString userId <;> cases asNonEmptyString bookId <;> rfl

/-- Witness for `lastPage_roundTrip`: storing page `5/2` for user `"u"`,
book `"b"` in the empty store and reading it back yields page 2, and a
page below 1 leaves the store unchanged. -/
theorem lastPage_roundTrip_witness :
    getLastPage (setLastPage [] "u" "b" (5/2) 7) "u" "b" = some 2 ∧
    setLastPage [] "u" "b" 0 7 = [] := by
  constructor
  · have h := (lastPage_roundTrip [] "u" "b" (5/2) 7).1
      (by decide) (by decide) (by norm_num)
    rw [h]
    norm_num
  · exact (lastPage_roundTrip [] "u" "b" 0 7).2 (Or.inr (Or.inr (by norm_num)))

/-! ### C3: coverage counterexample and amended coverage -/

/-- C3 counterexample: the rect `⟨-1/2, 1/4, 1, 1/4⟩` survives
normalization (it is a "valid input rect" in the claim's sense), and the
point `(-1/4, 3/8)` is covered by it; but normalization clamps the rect to
the unit square, so no rect of `mergeAll`'s output covers that point. -/
theorem mergeAll_coverage_counterexample :
    normalizeRect (Rect.mk (-1/2) (1/4) 1 (1/4)) = some (Rect.mk 0 (1/4) (1/2) (1/4)) ∧
    pointIn (-1/4) (3/8) (Rect.mk (-1/2) (1/4) 1 (1/4)) ∧
    ¬ ∃ t ∈ mergeRects [Rect.mk (-1/2) (1/4) 1 (1/4)], pointIn (-1/4) (3/8) t := by
  have hn : normalizeRect (Rect.mk (-1/2) (1/4) 1 (1/4)) =
      some (Rect.mk 0 (1/4) (1/2) (1/4)) := by
    rw [normalizeRect_def]
    rw [if_neg]
    · norm_num [clamp01, min_def, max_def]
    · norm_num [clamp01, MIN_RECT_SIZE, min_def, max_def]
  have hs : sortRects [Rect.mk 0 (1/4) (1/2) (1/4)] = [Rect.mk 0 (1/4) (1/2) (1/4)] := rfl
  have hm : mergeRects [Rect.mk (-1/2) (1/4) 1 (1/4)] = [Rect.mk 0 (1/4) (1/2) (1/4)] := by
    rw [mergeRects_def]
    simp only [List.filterMap_cons, List.filterMap_nil, hn, hs]
    norm_num
  refine ⟨hn, by norm_num [pointIn], ?_⟩
  rintro ⟨t, ht, hp⟩
  rw [hm, List.mem_singleton] at ht
  subst ht
  obtain ⟨h1, -, -, -⟩ := hp
  norm_num at h1

/-- C3 (amended): every point covered by the *normalized form* of some
input rect is covered by some rect of `mergeAll`'s output (normalization
clamps rects to the unit page, so coverage is guaranteed for the clamped
shapes), and no two distinct output rects satisfy the overlap test or the
same-line closeness test at the engine's epsilon. -/
theorem mergeAll_coverage_amended (rects : List Rect) :
    (∀ r ∈ rects, ∀ r', normalizeRect r = some r' → ∀ px py, pointIn px py r' →
      ∃ t ∈ mergeRects rects, pointIn px py t) ∧
    List.Pairwise (fun a b => rectsOverlap a b EPSILON = false ∧
      rectsCloseOnSameLine a b EPSILON = false) (mergeRects rects) := by
  constructor
  · intro r hr r' hn px py hp
    obtain ⟨t, ht, hc⟩ := mergeRects_covers hr hn
    exact ⟨t, ht, covers_pointIn hc hp⟩
  · refine (mergeRects_pairwise rects).imp ?_
    intro a b h
    unfold noMerge mergeTest at h
    simpa using h

/-- Witness for `mergeAll_coverage_amended` on a one-rect input. -/
theorem mergeAll_coverage_amended_witness :
    ∃ t ∈ mergeRects [Rect.mk 0 0 (1/2) (1/2)], pointIn (1/4) (1/4) t := by
  refine (mergeAll_coverage_amended [Rect.mk 0 0 (1/2) (1/2)]).1
    (Rect.mk 0 0 (1/2) (1/2)) (List.mem_singleton.mpr rfl)
    (Rect.mk 0 0 (1/2) (1/2)) ?_ (1/4) (1/4) (by norm_num [pointIn])
  exact normalizeRect_of_good (by norm_num [GoodRect, MIN_RECT_SIZE])

/-! ### C1/C7/C8 store-level helpers -/

theorem asNonEmptyString_def (s : String) :
    asNonEmptyString s =
      if 0 < (jsTrim s).length then some (jsTrim s) else none := rfl

/-- An id that the trim-guards accept unchanged. -/
theorem cleanId_spec {s : String} (h : asNonEmptyString s = some s) :
    jsTrim s = s ∧ 0 < s.length := by
  rw [asNonEmptyString_def] at h
  split at h
  · rename_i hpos
    have ht : jsTrim s = s := Option.some.inj h
    rw [ht] at hpos
    exact ⟨ht, hpos⟩
  · cases h

theorem safeIds_of_clean {ids : List String}
    (h : ∀ i ∈ ids, asNonEmptyString i = some i) :
    (ids.map jsTrim).filter (fun id => 0 < id.length) = ids := by
  induction ids with
  | nil => rfl
  | cons i rest ih =>
    obtain ⟨ht, hl⟩ := cleanId_spec (h i (List.mem_cons_self _ _))
    rw [List.map_cons, ht, List.filter_cons]
    rw [if_pos (by simpa using hl)]
    rw [ih fun j hj => h j (List.mem_cons_of_mem _ hj)]

theorem normalizeLastPageInt_pos {p : ℤ} (h : 1 ≤ p) :
    normalizeLastPageInt p = some p := by
  unfold normalizeLastPageInt
  rw [if_pos h]

theorem listHighlights_mem {db : List Highlight} {u b : String} {p : ℤ}
    (hu : asNonEmptyString u = some u) (hb : asNonEmptyString b = some b)
    (hp : 1 ≤ p) (h : Highlight) :
    h ∈ listHighlights db u b p ↔
      h ∈ db ∧ h.userId = u ∧ h.bookId = b ∧ h.page = p := by
  unfold listHighlights
  rw [hu, hb, normalizeLastPageInt_pos hp]
  rw [List.mem_insertionSort, List.mem_filter]
  simp [and_assoc]

theorem deleteHighlights_mem {db : List Highlight} {u : String} {ids : List String}
    (hu : asNonEmptyString u = some u)
    (hids : ∀ i ∈ ids, asNonEmptyString i = some i) (h : Highlight) :
    h ∈ deleteHighlights db u ids ↔ h ∈ db ∧ ¬(h.userId = u ∧ h.id ∈ ids) := by
  simp only [deleteHighlights, hu, safeIds_of_clean hids]
  split
  · rename_i hempty
    rw [List.isEmpty_iff] at hempty
    subst hempty
    simp
  · rw [List.mem_filter]
    have hcont : (ids.contains h.id = true) ↔ h.id ∈ ids := List.elem_iff
    constructor
    · rintro ⟨hdb, hb⟩
      refine ⟨hdb, fun hand => ?_⟩
      have hboth : (h.userId == u && ids.contains h.id) = true := by
        rw [Bool.and_eq_true]
        exact ⟨beq_iff_eq.mpr hand.1, hcont.mpr hand.2⟩
      rw [hboth] at hb
      simp at hb
    · rintro ⟨hdb, hno⟩
      refine ⟨hdb, ?_⟩
      rw [Bool.not_eq_true', Bool.and_eq_false_iff]
      by_cases hueq : h.userId = u
      · refine Or.inr ?_
        rw [← Bool.not_eq_true, hcont]
        exact fun hm => hno ⟨hueq, hm⟩
      · exact Or.inl (beq_eq_false_iff_ne.mpr hueq)

theorem insertHighlight_of_valid {db : List Highlight} {u b sid : String} {p : ℤ}
    {rects : List Rect} {cA uA : ℤ}
    (hu : asNonEmptyString u = some u) (hb : asNonEmptyString b = some b)
    (hi : asNonEmptyString sid = some sid) (hp : 1 ≤ p) (hr : rects ≠ []) :
    insertHighlight db u b p rects sid cA uA =
      (some (Highlight.mk sid u b p rects cA uA),
       db ++ [Highlight.mk sid u b p rects cA uA]) := by
  simp only [insertHighlight, hu, hb, hi, normalizeLastPageInt_pos hp]
  rw [if_neg (by simpa using hr)]

theorem createMergedHighlightOp_def (db : List Highlight) (u b : String) (p : ℤ)
    (rawRects : List Rect) (newId : String) (now : ℤ) :
    createMergedHighlightOp db u b p rawRects newId now =
      if (mergeRects rawRects).isEmpty then (none, db)
      else
        if (mergeRects (mergeRects rawRects ++
            ((listHighlights db u b p).filter fun h =>
              anyOverlap (mergeRects rawRects) h.rects).flatMap fun h => h.rects)).isEmpty
        then (none, db)
        else
          dbCreateMergedHighlight db u b p
            (mergeRects (mergeRects rawRects ++
              ((listHighlights db u b p).filter fun h =>
                anyOverlap (mergeRects rawRects) h.rects).flatMap fun h => h.rects))
            newId now now
            (((listHighlights db u b p).filter fun h =>
              anyOverlap (mergeRects rawRects) h.rects).map fun h => h.id) := rfl

/-- C1 (amended): merge-reconciliation.  Creating a selection B on the
same page as a stored engine-created highlight A, where some
normalization-surviving rect of B overlaps some rect of A under the
engine's overlap test, stores exactly one replacement highlight: every
existing highlight of the overlap group (A included) is deleted, the
single new highlight is inserted, and its rects cover all of A's stored
rects and the *normalized forms* of all of B's rects (normalization clamps
any selection rect to the unit page, so portions outside the page are not
preserved). -/
theorem mergeReconciliation_amended
    (db : List Highlight) (u b : String) (p : ℤ) (A : Highlight)
    (rawRects : List Rect) (newId : String) (now : ℤ)
    (hu : asNonEmptyString u = some u) (hb : asNonEmptyString b = some b)
    (hp : 1 ≤ p)
    (hA : A ∈ db) (hAu : A.userId = u) (hAb : A.bookId = b) (hAp : A.page = p)
    (hAgood : ∀ r ∈ A.rects, GoodRect r)
    (hclean : ∀ h ∈ db, asNonEmptyString h.id = some h.id)
    (hids : (db.map Highlight.id).Nodup)
    (hnew : asNonEmptyString newId = some newId)
    (hfresh : ∀ h ∈ db, h.id ≠ newId)
    (hoverlap : ∃ rB ∈ rawRects, ∃ rB', normalizeRect rB = some rB' ∧
      ∃ rA ∈ A.rects, rectsOverlap rB' rA EPSILON = true) :
    ∃ H db', createMergedHighlightOp db u b p rawRects newId now = (some H, db') ∧
      H.id = newId ∧ H.userId = u ∧ H.bookId = b ∧ H.page = p ∧ H ∈ db' ∧
      (∀ h ∈ db', h = H ∨ h ∈ db) ∧
      A.id ∉ db'.map Highlight.id ∧
      (∀ h ∈ db, h.userId = u → h.bookId = b → h.page = p →
        anyOverlap (mergeRects rawRects) h.rects = true →
        h.id ∉ db'.map Highlight.id) ∧
      (∀ r ∈ A.rects, ∃ t ∈ H.rects, covers t r) ∧
      (∀ rB ∈ rawRects, ∀ rB', normalizeRect rB = some rB' →
        ∃ t ∈ H.rects, covers t rB') := by
  classical
  obtain ⟨rB0, hrB0, rB0', hnB0, rA0, hrA0, hov0⟩ := hoverlap
  have hincne : mergeRects rawRects ≠ [] := mergeRects_nonempty hrB0 hnB0
  have hexist : A ∈ listHighlights db u b p :=
    (listHighlights_mem hu hb hp A).mpr ⟨hA, hAu, hAb, hAp⟩
  obtain ⟨t0, ht0, hcov0⟩ := mergeRects_covers hrB0 hnB0
  have hAnyA : anyOverlap (mergeRects rawRects) A.rects = true := by
    unfold anyOverlap
    rw [List.any_eq_true]
    exact ⟨t0, ht0, List.any_eq_true.mpr
      ⟨rA0, hrA0, rectsOverlap_mono_left hcov0 hov0⟩⟩
  have hAov : A ∈ (listHighlights db u b p).filter
      (fun h => anyOverlap (mergeRects rawRects) h.rects) :=
    List.mem_filter.mpr ⟨hexist, hAnyA⟩
  have hgoodinc : ∀ t ∈ mergeRects rawRects, GoodRect t := mergeRects_good rawRects
  have hfinne : mergeRects (mergeRects rawRects ++
      ((listHighlights db u b p).filter fun h =>
        anyOverlap (mergeRects rawRects) h.rects).flatMap fun h => h.rects) ≠ [] :=
    mergeRects_nonempty (List.mem_append_left _ ht0)
      (normalizeRect_of_good (hgoodinc t0 ht0))
  have hovsub : ∀ h ∈ (listHighlights db u b p).filter
      (fun h => anyOverlap (mergeRects rawRects) h.rects), h ∈ db ∧ h.userId = u := by
    intro h hh
    have hm := (listHighlights_mem hu hb hp h).mp (List.mem_filter.mp hh).1
    exact ⟨hm.1, hm.2.1⟩
  have hidsclean : ∀ i ∈ ((listHighlights db u b p).filter
      (fun h => anyOverlap (mergeRects rawRects) h.rects)).map (fun h => h.id),
      asNonEmptyString i = some i := by
    intro i hi
    obtain ⟨h, hh, rfl⟩ := List.mem_map.mp hi
    exact hclean h (hovsub h hh).1
  have hop : createMergedHighlightOp db u b p rawRects newId now =
      (some (Highlight.mk newId u b p (mergeRects (mergeRects rawRects ++
          ((listHighlights db u b p).filter fun h =>
            anyOverlap (mergeRects rawRects) h.rects).flatMap fun h => h.rects)) now now),
       deleteHighlights db u (((listHighlights db u b p).filter fun h =>
          anyOverlap (mergeRects rawRects) h.rects).map fun h => h.id) ++
        [Highlight.mk newId u b p (mergeRects (mergeRects rawRects ++
          ((listHighlights db u b p).filter fun h =>
            anyOverlap (mergeRects rawRects) h.rects).flatMap fun h => h.rects)) now now]) := by
    rw [createMergedHighlightOp_def]
    rw [if_neg (by simpa [List.isEmpty_iff] using hincne)]
    rw [if_neg (by simpa [List.isEmpty_iff] using hfinne)]
    unfold dbCreateMergedHighlight
    exact insertHighlight_of_valid hu hb hnew hp hfinne
  refine ⟨_, _, hop, rfl, rfl, rfl, rfl, ?_, ?_, ?_, ?_, ?_, ?_⟩
  · exact List.mem_append_right _ (List.mem_singleton.mpr rfl)
  · intro h hh
    rcases List.mem_append.mp hh with hh | hh
    · exact Or.inr ((deleteHighlights_mem hu hidsclean h).mp hh).1
    · exact Or.inl (List.mem_singleton.mp hh)
  · intro hmem
    rw [List.map_append, List.mem_append] at hmem
    rcases hmem with hmem | hmem
    · obtain ⟨g, hg, hgid⟩ := List.mem_map.mp hmem
      obtain ⟨hgdb, hgkeep⟩ := (deleteHighlights_mem hu hidsclean g).mp hg
      have hgA : g = A := List.inj_on_of_nodup_map hids hgdb hA hgid
      rw [hgA] at hgkeep
      exact hgkeep ⟨hAu, List.mem_map.mpr ⟨A, hAov, rfl⟩⟩
    · rw [List.map_singleton, List.mem_singleton] at hmem
      exact hfresh A hA hmem
  · intro h hhdb hhu hhb hhp hhany hmem
    have hhov : h ∈ (listHighlights db u b p).filter
        (fun g => anyOverlap (mergeRects rawRects) g.rects) :=
      List.mem_filter.mpr ⟨(listHighlights_mem hu hb hp h).mpr ⟨hhdb, hhu, hhb, hhp⟩, hhany⟩
    rw [List.map_append, List.mem_append] at hmem
    rcases hmem with hmem | hmem
    · obtain ⟨g, hg, hgid⟩ := List.mem_map.mp hmem
      obtain ⟨hgdb, hgkeep⟩ := (deleteHighlights_mem hu hidsclean g).mp hg
      have hgh : g = h := List.inj_on_of_nodup_map hids hgdb hhdb hgid
      rw [hgh] at hgkeep
      exact hgkeep ⟨hhu, List.mem_map.mpr ⟨h, hhov, rfl⟩⟩
    · rw [List.map_singleton, List.mem_singleton] at hmem
      exact hfresh h hhdb hmem
  · intro r hr
    have hrall : r ∈ mergeRects rawRects ++
        ((listHighlights db u b p).filter fun h =>
          anyOverlap (mergeRects rawRects) h.rects).flatMap fun h => h.rects :=
      List.mem_append_right _ (List.mem_flatMap.mpr ⟨A, hAov, hr⟩)
    exact mergeRects_covers hrall (normalizeRect_of_good (hAgood r hr))
  · intro rB hrB rB' hnB
    obtain ⟨s, hs, hcovs⟩ := mergeRects_covers hrB hnB
    have hsall : s ∈ mergeRects rawRects ++
        ((listHighlights db u b p).filter fun h =>
          anyOverlap (mergeRects rawRects) h.rects).flatMap fun h => h.rects :=
      List.mem_append_left _ hs
    obtain ⟨t, ht, hcovt⟩ :=
      mergeRects_covers hsall (normalizeRect_of_good (hgoodinc s hs))
    exact ⟨t, ht, covers_trans hcovt hcovs⟩

/-! ### Concrete-evaluation helpers for counterexamples and witnesses -/

theorem mergeRects_single {r s : Rect} (h : normalizeRect r = some s) :
    mergeRects [r] = [s] := by
  rw [mergeRects_def]
  simp only [List.filterMap_cons, List.filterMap_nil, h]
  have h1 : sortRects [s] = [s] := rfl
  rw [h1]
  simp

theorem mergePair_self (a : Rect) : mergePair a a = a := by
  simp only [mergePair]
  rw [min_self, min_self, max_self, max_self, add_sub_cancel_left, add_sub_cancel_left]

theorem mergeStep_single (a : Rect) : mergeStep [a] = [a] := by
  rw [mergeStep_cons]
  simp [absorb, mergeStep_nil]

theorem mergeStep_pair_self {a : Rect} (ht : mergeTest a a = true) :
    mergeStep [a, a] = [a] := by
  rw [mergeStep_cons, absorb_cons_pos _ ht, mergePair_self]
  simp [absorb, mergeStep_nil]

theorem mergeRects_pair_self {a : Rect} (hg : GoodRect a) (ht : mergeTest a a = true) :
    mergeRects [a, a] = [a] := by
  have hn := normalizeRect_of_good hg
  have hsorted : List.Sorted rectLE [a, a] := by
    refine List.pairwise_cons.mpr ⟨?_, List.pairwise_singleton _ _⟩
    intro c hc
    rw [List.mem_singleton] at hc
    subst hc
    exact Or.inr ⟨rfl, le_refl _⟩
  have hsort : sortRects [a, a] = [a, a] := sortRects_of_sorted hsorted
  have h1 : sortRects [a] = [a] := rfl
  rw [mergeRects_def]
  simp only [List.filterMap_cons, List.filterMap_nil, hn, hsort]
  rw [if_neg (by norm_num)]
  rw [mergeLoop_eq, mergeStep_pair_self ht, h1, if_pos (by norm_num)]
  rw [mergeLoop_eq, mergeStep_single, h1, if_neg (by norm_num)]

/-- C1 counterexample: the stored highlight A has the single rect
`[0,1/2]×[0,1/2]`; the selection B is the single rect
`[-1/4,1/2]×[0,1/2]`, which overlaps A's rect under the engine's overlap
test at `EPSILON`.  The operation does leave exactly one stored highlight,
but its rects are the *normalized* union: the point `(-1/8, 1/4)` of B's
rect (off the left edge of the page) is covered by no rect of the stored
result, refuting "whose rects cover the union of A's original rects and
B's rects". -/
theorem mergeReconciliation_counterexample :
    rectsOverlap (Rect.mk (-1/4) 0 (3/4) (1/2)) (Rect.mk 0 0 (1/2) (1/2)) EPSILON = true ∧
    pointIn (-1/8) (1/4) (Rect.mk (-1/4) 0 (3/4) (1/2)) ∧
    createMergedHighlightOp
      [Highlight.mk "A" "u" "b" 1 [Rect.mk 0 0 (1/2) (1/2)] 0 0] "u" "b" 1
      [Rect.mk (-1/4) 0 (3/4) (1/2)] "B" 5 =
      (some (Highlight.mk "B" "u" "b" 1 [Rect.mk 0 0 (1/2) (1/2)] 5 5),
       [Highlight.mk "B" "u" "b" 1 [Rect.mk 0 0 (1/2) (1/2)] 5 5]) ∧
    ¬ ∃ t ∈ (Highlight.mk "B" "u" "b" 1 [Rect.mk 0 0 (1/2) (1/2)] 5 5).rects,
        pointIn (-1/8) (1/4) t := by
  have hgA : GoodRect (Rect.mk 0 0 (1/2) (1/2)) := by
    norm_num [GoodRect, MIN_RECT_SIZE]
  have hna : normalizeRect (Rect.mk (-1/4) 0 (3/4) (1/2)) =
      some (Rect.mk 0 0 (1/2) (1/2)) := by
    rw [normalizeRect_def, if_neg]
    · norm_num [clamp01, min_def, max_def]
    · norm_num [clamp01, MIN_RECT_SIZE, min_def, max_def]
  have hovaa : rectsOverlap (Rect.mk 0 0 (1/2) (1/2)) (Rect.mk 0 0 (1/2) (1/2))
      EPSILON = true := by
    rw [rectsOverlap_iff]
    norm_num [EPSILON]
  have hmt : mergeTest (Rect.mk 0 0 (1/2) (1/2)) (Rect.mk 0 0 (1/2) (1/2)) = true := by
    unfold mergeTest
    rw [hovaa]
    rfl
  have hinc : mergeRects [Rect.mk (-1/4) 0 (3/4) (1/2)] = [Rect.mk 0 0 (1/2) (1/2)] :=
    mergeRects_single hna
  have hany : anyOverlap [Rect.mk 0 0 (1/2) (1/2)] [Rect.mk 0 0 (1/2) (1/2)] = true := by
    unfold anyOverlap
    simp only [List.any_cons, List.any_nil, Bool.or_false]
    exact hovaa
  have hlist : listHighlights [Highlight.mk "A" "u" "b" 1 [Rect.mk 0 0 (1/2) (1/2)] 0 0]
      "u" "b" 1 = [Highlight.mk "A" "u" "b" 1 [Rect.mk 0 0 (1/2) (1/2)] 0 0] := by
    unfold listHighlights
    rw [show asNonEmptyString "u" = some "u" from by decide,
      show asNonEmptyString "b" = some "b" from by decide,
      normalizeLastPageInt_pos (by norm_num)]
    rfl
  have hfin : mergeRects [Rect.mk 0 0 (1/2) (1/2), Rect.mk 0 0 (1/2) (1/2)] =
      [Rect.mk 0 0 (1/2) (1/2)] := mergeRects_pair_self hgA hmt
  have hdel : deleteHighlights [Highlight.mk "A" "u" "b" 1 [Rect.mk 0 0 (1/2) (1/2)] 0 0]
      "u" ["A"] = [] := by
    unfold deleteHighlights
    rw [show asNonEmptyString "u" = some "u" from by decide]
    rfl
  have hins : insertHighlight ([] : List Highlight) "u" "b" 1
      [Rect.mk 0 0 (1/2) (1/2)] "B" 5 5 =
      (some (Highlight.mk "B" "u" "b" 1 [Rect.mk 0 0 (1/2) (1/2)] 5 5),
       [Highlight.mk "B" "u" "b" 1 [Rect.mk 0 0 (1/2) (1/2)] 5 5]) := by
    exact insertHighlight_of_valid (by decide) (by decide) (by decide) (by norm_num)
      (by simp)
  refine ⟨by rw [rectsOverlap_iff]; norm_num [EPSILON], by norm_num [pointIn], ?_, ?_⟩
  · rw [createMergedHighlightOp_def, hinc, hlist]
    simp only [List.filter_cons, List.filter_nil, hany, eq_self_iff_true, if_true,
      List.flatMap_cons, List.flatMap_nil, List.append_nil, List.singleton_append,
      hfin, List.map_cons, List.map_nil]
    rw [if_neg (by simp), if_neg (by simp)]
    unfold dbCreateMergedHighlight
    rw [hdel]
    exact hins
  · rintro ⟨t, ht, hp⟩
    rw [show (Highlight.mk "B" "u" "b" 1 [Rect.mk 0 0 (1/2) (1/2)] 5 5).rects =
      [Rect.mk 0 0 (1/2) (1/2)] from rfl, List.mem_singleton] at ht
    subst ht
    obtain ⟨h1, -, -, -⟩ := hp
    norm_num at h1

/-- Witness for `mergeReconciliation_amended`: selection B equal to stored
highlight A's rect; the operation stores one replacement under the fresh
id and A's id is gone. -/
theorem mergeReconciliation_amended_witness :
    ∃ H db', createMergedHighlightOp
        [Highlight.mk "A" "u" "b" 1 [Rect.mk 0 0 (1/2) (1/2)] 0 0] "u" "b" 1
        [Rect.mk 0 0 (1/2) (1/2)] "B" 5 = (some H, db') ∧
      H.id = "B" ∧ "A" ∉ db'.map Highlight.id := by
  have hgA : GoodRect (Rect.mk 0 0 (1/2) (1/2)) := by
    norm_num [GoodRect, MIN_RECT_SIZE]
  have hovaa : rectsOverlap (Rect.mk 0 0 (1/2) (1/2)) (Rect.mk 0 0 (1/2) (1/2))
      EPSILON = true := by
    rw [rectsOverlap_iff]
    norm_num [EPSILON]
  obtain ⟨H, db', hop, hid, -, -, -, -, -, hgone, -, -, -⟩ :=
    mergeReconciliation_amended
      [Highlight.mk "A" "u" "b" 1 [Rect.mk 0 0 (1/2) (1/2)] 0 0] "u" "b" 1
      (Highlight.mk "A" "u" "b" 1 [Rect.mk 0 0 (1/2) (1/2)] 0 0)
      [Rect.mk 0 0 (1/2) (1/2)] "B" 5
      (by decide) (by decide) (by norm_num)
      (List.mem_singleton.mpr rfl) rfl rfl rfl
      (by
        intro r hr
        rw [show (Highlight.mk "A" "u" "b" 1 [Rect.mk 0 0 (1/2) (1/2)] 0 0).rects =
          [Rect.mk 0 0 (1/2) (1/2)] from rfl, List.mem_singleton] at hr
        subst hr
        exact hgA)
      (by
        intro h hh
        rw [List.mem_singleton] at hh
        subst hh
        decide)
      (by simp)
      (by decide)
      (by
        intro h hh
        rw [List.mem_singleton] at hh
        subst hh
        decide)
      ⟨Rect.mk 0 0 (1/2) (1/2), List.mem_singleton.mpr rfl,
        Rect.mk 0 0 (1/2) (1/2), normalizeRect_of_good hgA,
        Rect.mk 0 0 (1/2) (1/2), List.mem_singleton.mpr rfl, hovaa⟩
  exact ⟨H, db', hop, hid, hgone⟩

/-- C7 counterexample: calling the transactional method with the marked
id `"A"` but an empty rect list deletes the marked highlight and inserts
nothing, yet the transaction commits (better-sqlite3 rolls back only on a
thrown exception, and `insertHighlight` signals failure by returning null,
not by throwing): the caller gets the null failure while the deletion is
durable — marked highlights deleted, new highlight absent. -/
theorem atomicity_counterexample :
    dbCreateMergedHighlight [Highlight.mk "A" "u" "b" 1 [Rect.mk 0 0 (1/2) (1/2)] 0 0]
      "u" "b" 1 [] "B" 5 5 ["A"] = (none, []) := by
  have hdel : deleteHighlights
      [Highlight.mk "A" "u" "b" 1 [Rect.mk 0 0 (1/2) (1/2)] 0 0] "u" ["A"] = [] := by
    unfold deleteHighlights
    rw [show asNonEmptyString "u" = some "u" from by decide]
    rfl
  unfold dbCreateMergedHighlight
  rw [hdel]
  rfl

/-- C7 (amended): the deletions and the insert run in one transaction.
When the insert's validity conditions hold — non-empty trimmed user, book
and record ids, page at least 1 and a non-empty rect list, which is
exactly what the merged-highlight handler guarantees at its only call
site — the operation commits with both the deletions and the insertion
applied and returns the new highlight.  When the rect list is empty the
insert returns null but the transaction still commits: the caller gets a
failure result while the deletions persist (no rollback without a thrown
exception). -/
theorem dbCreateMerged_amended (db : List Highlight) (u b id : String) (p : ℤ)
    (rects : List Rect) (cA uA : ℤ) (removeIds : List String) :
    (asNonEmptyString u = some u → asNonEmptyString b = some b →
      asNonEmptyString id = some id → 1 ≤ p → rects ≠ [] →
      dbCreateMergedHighlight db u b p rects id cA uA removeIds =
        (some (Highlight.mk id u b p rects cA uA),
         deleteHighlights db u removeIds ++ [Highlight.mk id u b p rects cA uA])) ∧
    (rects = [] →
      dbCreateMergedHighlight db u b p rects id cA uA removeIds =
        (none, deleteHighlights db u removeIds)) := by
  constructor
  · intro hu hb hi hp hr
    unfold dbCreateMergedHighlight
    exact insertHighlight_of_valid hu hb hi hp hr
  · intro hr
    subst hr
    unfold dbCreateMergedHighlight
    rcases h1 : asNonEmptyString u with _ | su <;>
      rcases h2 : asNonEmptyString b with _ | sb <;>
        rcases h3 : asNonEmptyString id with _ | sid <;>
          rcases h4 : normalizeLastPageInt p with _ | sp <;>
            simp [insertHighlight, h1, h2, h3, h4]

/-- Witness for `dbCreateMerged_amended`: a valid insert against the empty
store commits with the new row present. -/
theorem dbCreateMerged_amended_witness :
    dbCreateMergedHighlight [] "u" "b" 1 [Rect.mk 0 0 (1/2) (1/2)] "B" 5 5 [] =
      (some (Highlight.mk "B" "u" "b" 1 [Rect.mk 0 0 (1/2) (1/2)] 5 5),
       [Highlight.mk "B" "u" "b" 1 [Rect.mk 0 0 (1/2) (1/2)] 5 5]) := by
  have h := (dbCreateMerged_amended [] "u" "b" "B" 1 [Rect.mk 0 0 (1/2) (1/2)] 5 5 []).1
    (by decide) (by decide) (by decide) (by norm_num) (by simp)
  rw [h]
  rfl

/-! ### C5: autosave debounce -/

theorem autosaveStep_pageChange_none (s : AutosaveState) (pg : ℤ) (t : ℚ)
    (hpend : s.pending = none) :
    autosaveStep true true s (AutosaveEvent.pageChange pg t) =
      AutosaveState.mk (some (t + AUTOSAVE_DELAY, pg)) s.writes pg := by
  unfold autosaveStep fireIfDue
  rw [hpend]
  dsimp only
  simp

theorem autosaveStep_pageChange_live (s : AutosaveState) (pg : ℤ) (t d : ℚ) (q : ℤ)
    (hpend : s.pending = some (d, q)) (hlt : t < d) :
    autosaveStep true true s (AutosaveEvent.pageChange pg t) =
      AutosaveState.mk (some (t + AUTOSAVE_DELAY, pg)) s.writes pg := by
  have hnle : ¬ d ≤ t := not_le.mpr hlt
  unfold autosaveStep fireIfDue
  rw [hpend]
  dsimp only
  simp [hnle]

theorem autosaveStep_flush_live (s : AutosaveState) (tf d : ℚ) (q : ℤ)
    (hpend : s.pending = some (d, q)) (hlt : tf < d) :
    autosaveStep true true s (AutosaveEvent.flush tf) =
      AutosaveState.mk none (s.writes ++ [max 1 s.latestPage]) s.latestPage := by
  have hnle : ¬ d ≤ tf := not_le.mpr hlt
  unfold autosaveStep fireIfDue
  rw [hpend]
  dsimp only
  simp [hnle]

theorem autosave_fold (changes : List (ℤ × ℚ)) (p : ℤ) (t : ℚ) (w : List ℤ)
    (hch : List.Chain (fun a b => b.2 < a.2 + AUTOSAVE_DELAY) (p, t) changes) :
    List.foldl (autosaveStep true true)
      (AutosaveState.mk (some (t + AUTOSAVE_DELAY, p)) w p)
      (changes.map fun z => AutosaveEvent.pageChange z.1 z.2) =
    AutosaveState.mk (some ((changes.getLastD (p, t)).2 + AUTOSAVE_DELAY,
      (changes.getLastD (p, t)).1)) w (changes.getLastD (p, t)).1 := by
  induction changes generalizing p t with
  | nil => simp [List.getLastD]
  | cons z rest ih =>
    cases hch with
    | cons hlt hch' =>
      rw [List.map_cons, List.foldl_cons]
      rw [autosaveStep_pageChange_live _ z.1 z.2 (t + AUTOSAVE_DELAY) p rfl
        (by exact hlt)]
      rw [List.getLastD_cons]
      exact ih z.1 z.2 hch'

/-- C5: reading-position autosave debounce.  With the document loaded and
the initial restore applied (`canSave`) and valid trimmed ids, a burst of
page changes each arriving within the 400ms quiet interval of the
previous one produces **no** durable write while the burst lasts; exactly
one timer survives, carrying the final page value, so exactly one durable
write (of the final page) happens when it fires; and a forced flush (view
teardown or `beforeunload`) before the timer's deadline immediately
persists exactly the latest page and cancels the timer. -/
theorem autosaveDebounce (p0 : ℤ) (t0 : ℚ) (rest : List (ℤ × ℚ)) (tf : ℚ)
    (hch : List.Chain (fun a b => b.2 < a.2 + AUTOSAVE_DELAY) (p0, t0) rest)
    (hlast : 1 ≤ (rest.getLastD (p0, t0)).1)
    (hf : tf < (rest.getLastD (p0, t0)).2 + AUTOSAVE_DELAY) :
    (runAutosave true true
      (((p0, t0) :: rest).map fun z => AutosaveEvent.pageChange z.1 z.2)).writes = [] ∧
    (settleAutosave (runAutosave true true
      (((p0, t0) :: rest).map fun z => AutosaveEvent.pageChange z.1 z.2))).writes =
      [(rest.getLastD (p0, t0)).1] ∧
    (runAutosave true true
      ((((p0, t0) :: rest).map fun z => AutosaveEvent.pageChange z.1 z.2) ++
        [AutosaveEvent.flush tf])).writes = [(rest.getLastD (p0, t0)).1] ∧
    (runAutosave true true
      ((((p0, t0) :: rest).map fun z => AutosaveEvent.pageChange z.1 z.2) ++
        [AutosaveEvent.flush tf])).pending = none := by
  have hmax : max 1 (rest.getLastD (p0, t0)).1 = (rest.getLastD (p0, t0)).1 :=
    max_eq_right hlast
  have hrun : runAutosave true true
      (((p0, t0) :: rest).map fun z => AutosaveEvent.pageChange z.1 z.2) =
      AutosaveState.mk (some ((rest.getLastD (p0, t0)).2 + AUTOSAVE_DELAY,
        (rest.getLastD (p0, t0)).1)) [] (rest.getLastD (p0, t0)).1 := by
    unfold runAutosave
    rw [List.map_cons, List.foldl_cons]
    rw [autosaveStep_pageChange_none autosaveInit p0 t0 rfl]
    exact autosave_fold rest p0 t0 [] hch
  have hflush : runAutosave true true
      ((((p0, t0) :: rest).map fun z => AutosaveEvent.pageChange z.1 z.2) ++
        [AutosaveEvent.flush tf]) =
      AutosaveState.mk none [(rest.getLastD (p0, t0)).1] (rest.getLastD (p0, t0)).1 := by
    unfold runAutosave
    rw [List.foldl_append]
    show autosaveStep true true (runAutosave true true _) (AutosaveEvent.flush tf) = _
    rw [hrun]
    rw [autosaveStep_flush_live _ tf ((rest.getLastD (p0, t0)).2 + AUTOSAVE_DELAY)
      (rest.getLastD (p0, t0)).1 rfl hf]
    dsimp only
    rw [List.nil_append, hmax]
  refine ⟨by rw [hrun], ?_, by rw [hflush], by rw [hflush]⟩
  rw [hrun]
  unfold settleAutosave
  dsimp only
  rw [List.nil_append, hmax]

/-- Witness for `autosaveDebounce`: three rapid page changes (pages 2, 3,
4 at 0ms, 100ms, 200ms) yield exactly one durable write, of page 4, once
the surviving timer fires. -/
theorem autosaveDebounce_witness :
    (settleAutosave (runAutosave true true [AutosaveEvent.pageChange 2 0,
      AutosaveEvent.pageChange 3 100, AutosaveEvent.pageChange 4 200])).writes = [4] := by
  have h := (autosaveDebounce 2 0 [(3, 100), (4, 200)] 300
    (List.Chain.cons (by norm_num [AUTOSAVE_DELAY])
      (List.Chain.cons (by norm_num [AUTOSAVE_DELAY]) List.Chain.nil))
    (by norm_num) (by norm_num [AUTOSAVE_DELAY])).2.1
  exact h

/-! ### C8: delete with undo -/

theorem insertRawHighlightOp_of_valid {db : List Highlight} {u b id : String} {p : ℤ}
    {rects : List Rect} {now : ℤ}
    (hu : asNonEmptyString u = some u) (hb : asNonEmptyString b = some b)
    (hi : asNonEmptyString id = some id) (hp : 1 ≤ p)
    (hgood : ∀ r ∈ rects, GoodRect r) (hne : rects ≠ []) :
    insertRawHighlightOp db u b p rects id now =
      (some (Highlight.mk id u b p rects now now),
       db ++ [Highlight.mk id u b p rects now now]) := by
  unfold insertRawHighlightOp
  rw [filterMap_normalize_self hgood]
  rw [if_neg (by simpa [List.isEmpty_iff] using hne)]
  exact insertHighlight_of_valid hu hb hi hp hne

/-- C8: delete-with-undo.  Queuing the deletion of a stored, engine-created
highlight `h` at time `t0` and undoing before the 5s grace window elapses
cancels the deferred durable delete (the timer list is empty, `h` is still
stored) and durably re-inserts a record under the fresh id whose rects
equal `h`'s rects exactly.  Undoing only after the window has elapsed has
no effect: the timer has already fired, the durable store no longer holds
`h`'s id, and no new record is inserted. -/
theorem deleteWithUndo (store visible0 : List Highlight) (h : Highlight)
    (userId newId : String) (now : ℤ) (t0 t1 t2 : ℚ)
    (hu : asNonEmptyString userId = some userId)
    (hAid : asNonEmptyString h.id = some h.id)
    (hb : asNonEmptyString h.bookId = some h.bookId)
    (hpage : 1 ≤ h.page)
    (hnew : asNonEmptyString newId = some newId)
    (hgood : ∀ r ∈ h.rects, GoodRect r) (hrne : h.rects ≠ [])
    (hmem : h ∈ store) (huser : h.userId = userId)
    (hids : (store.map Highlight.id).Nodup)
    (hfreshAll : ∀ g ∈ store, g.id ≠ newId)
    (ht1 : t1 < t0 + UNDO_GRACE) (ht2 : t0 + UNDO_GRACE ≤ t2) :
    ((runUndoSys userId (UndoState.mk visible0 [] [] store)
        [UndoEvent.queue h t0, UndoEvent.undo h.id newId now t1]).store =
      store ++ [Highlight.mk newId userId h.bookId h.page h.rects now now] ∧
     (runUndoSys userId (UndoState.mk visible0 [] [] store)
        [UndoEvent.queue h t0, UndoEvent.undo h.id newId now t1]).timers = [] ∧
     h ∈ (runUndoSys userId (UndoState.mk visible0 [] [] store)
        [UndoEvent.queue h t0, UndoEvent.undo h.id newId now t1]).store) ∧
    ((∀ g ∈ (runUndoSys userId (UndoState.mk visible0 [] [] store)
        [UndoEvent.queue h t0, UndoEvent.undo h.id newId now t2]).store, g.id ≠ h.id) ∧
     (∀ g ∈ (runUndoSys userId (UndoState.mk visible0 [] [] store)
        [UndoEvent.queue h t0, UndoEvent.undo h.id newId now t2]).store, g.id ≠ newId)) := by
  have htrim : jsTrim h.id = h.id := (cleanId_spec hAid).1
  have hlen : 0 < h.id.length := (cleanId_spec hAid).2
  have hstep1 : undoSysStep userId (UndoState.mk visible0 [] [] store)
      (UndoEvent.queue h t0) =
      UndoState.mk (visible0.filter fun item => !(item.id == h.id)) [(h.id, h)]
        [(h.id, t0 + UNDO_GRACE, h)] store := by
    unfold undoSysStep fireDueUndoTimers queueDeletion
    dsimp only
    rw [htrim]
    rw [if_neg (by omega)]
    simp
  have hnotdue : ¬ (t0 + UNDO_GRACE ≤ t1) := by linarith
  have hdue2 : (t0 + UNDO_GRACE ≤ t2) := ht2
  have hraw : insertRawHighlightOp store userId h.bookId h.page h.rects newId now =
      (some (Highlight.mk newId userId h.bookId h.page h.rects now now),
       store ++ [Highlight.mk newId userId h.bookId h.page h.rects now now]) :=
    insertRawHighlightOp_of_valid hu hb hnew hpage hgood hrne
  have hstep2a : undoSysStep userId
      (UndoState.mk (visible0.filter fun item => !(item.id == h.id)) [(h.id, h)]
        [(h.id, t0 + UNDO_GRACE, h)] store)
      (UndoEvent.undo h.id newId now t1) =
      UndoState.mk (visible0.filter fun item => !(item.id == h.id)) [] []
        (store ++ [Highlight.mk newId userId h.bookId h.page h.rects now now]) := by
    unfold undoSysStep fireDueUndoTimers undoDeletion
    dsimp only
    simp only [List.filter_cons, List.filter_nil, decide_eq_true_eq, hnotdue, if_false,
      Bool.not_false, Bool.not_true, if_true, List.foldl_nil]
    rw [List.find?_cons_of_pos _ (by simp)]
    dsimp only
    simp only [beq_self_eq_true, Bool.not_true, if_false]
    rw [hraw]
    simp
  have hdelh : (deleteHighlight store userId h.id).2 =
      store.filter fun g => !(g.id == h.id && g.userId == userId) := by
    unfold deleteHighlight
    rw [hu, hAid]
  have hstep2b : undoSysStep userId
      (UndoState.mk (visible0.filter fun item => !(item.id == h.id)) [(h.id, h)]
        [(h.id, t0 + UNDO_GRACE, h)] store)
      (UndoEvent.undo h.id newId now t2) =
      UndoState.mk (visible0.filter fun item => !(item.id == h.id)) [] []
        (store.filter fun g => !(g.id == h.id && g.userId == userId)) := by
    unfold undoSysStep fireDueUndoTimers undoDeletion
    dsimp only
    simp only [List.filter_cons, List.filter_nil, decide_eq_true_eq, hdue2, if_true,
      Bool.not_true, if_false, List.foldl_cons, List.foldl_nil]
    simp only [beq_self_eq_true, Bool.not_true, List.filter_cons, if_false,
      List.filter_nil, List.find?_nil, hdelh]
    simp
  constructor
  · unfold runUndoSys
    rw [List.foldl_cons, hstep1, List.foldl_cons, hstep2a, List.foldl_nil]
    refine ⟨rfl, rfl, List.mem_append_left _ hmem⟩
  · unfold runUndoSys
    rw [List.foldl_cons, hstep1, List.foldl_cons, hstep2b, List.foldl_nil]
    constructor
    · intro g hg hgid
      have hgs := List.mem_filter.mp hg
      have hgh : g = h := List.inj_on_of_nodup_map hids hgs.1 hmem hgid
      have := hgs.2
      rw [hgh, huser] at this
      simp at this
    · intro g hg
      exact hfreshAll g (List.mem_filter.mp hg).1

/-- Witness for `deleteWithUndo`: queue the deletion of the only stored
highlight at 0ms and undo at 1000ms (inside the 5s window); the store
keeps the original record and gains the re-inserted copy under the fresh
id with identical rects. -/
theorem deleteWithUndo_witness :
    (runUndoSys "u"
      (UndoState.mk [] [] []
        [Highlight.mk "A" "u" "b" 1 [Rect.mk 0 0 (1/2) (1/2)] 0 0])
      [UndoEvent.queue (Highlight.mk "A" "u" "b" 1 [Rect.mk 0 0 (1/2) (1/2)] 0 0) 0,
       UndoEvent.undo "A" "B" 9 1000]).store =
    [Highlight.mk "A" "u" "b" 1 [Rect.mk 0 0 (1/2) (1/2)] 0 0,
     Highlight.mk "B" "u" "b" 1 [Rect.mk 0 0 (1/2) (1/2)] 9 9] := by
  have h := (deleteWithUndo
    [Highlight.mk "A" "u" "b" 1 [Rect.mk 0 0 (1/2) (1/2)] 0 0] []
    (Highlight.mk "A" "u" "b" 1 [Rect.mk 0 0 (1/2) (1/2)] 0 0)
    "u" "B" 9 0 1000 6000
    (by decide) (by decide) (by decide) (by norm_num) (by decide)
    (by
      intro r hr
      rw [show (Highlight.mk "A" "u" "b" 1 [Rect.mk 0 0 (1/2) (1/2)] 0 0).rects =
        [Rect.mk 0 0 (1/2) (1/2)] from rfl, List.mem_singleton] at hr
      subst hr
      norm_num [GoodRect, MIN_RECT_SIZE])
    (by simp)
    (List.mem_singleton.mpr rfl) rfl (by simp)
    (by
      intro g hg
      rw [List.mem_singleton] at hg
      subst hg
      decide)
    (by norm_num [UNDO_GRACE]) (by norm_num [UNDO_GRACE])).1.1
  exact h

/-! ### C6: search matching semantics -/

theorem scanPage_spec (pg : ℕ) (text needle : List Char) (acc : List PdfSearchResult)
    (fromIndex : ℕ) (hn : needle.length ≠ 0) :
    scanPage pg text needle acc fromIndex =
      acc ++ ((occurrencesFrom (toLowerStr text) needle fromIndex).take
        (MAX_RESULTS - acc.length)).map
          (fun i => mkResult pg text i (i + needle.length)) := by
  rw [scanPage_eq]
  by_cases hcond : fromIndex < (toLowerStr text).length ∧ acc.length < MAX_RESULTS
  · rw [if_pos hcond]
    cases hidx : indexOfFrom (toLowerStr text) needle fromIndex with
    | none =>
      rw [occurrencesFrom_none hn hidx]
      simp
    | some i =>
      dsimp only
      rw [occurrencesFrom_some hn hidx]
      rw [scanPage_spec pg text needle
        (acc ++ [mkResult pg text i (i + needle.length)]) (i + needle.length) hn]
      obtain ⟨k, hk⟩ : ∃ k, MAX_RESULTS - acc.length = k + 1 :=
        ⟨MAX_RESULTS - acc.length - 1, by omega⟩
      rw [hk, List.take_succ_cons, List.map_cons]
      have hk2 : MAX_RESULTS - (acc ++ [mkResult pg text i (i + needle.length)]).length = k := by
        simp only [List.length_append, List.length_cons, List.length_nil]
        omega
      rw [hk2]
      simp
  · rw [if_neg hcond]
    push_neg at hcond
    by_cases h1 : fromIndex < (toLowerStr text).length
    · have h2 := hcond h1
      rw [show MAX_RESULTS - acc.length = 0 from by omega]
      simp
    · have hnone : indexOfFrom (toLowerStr text) needle fromIndex = none := by
        rw [indexOfFrom_eq, if_pos (by omega)]
      rw [occurrencesFrom_none hn hnone]
      simp
termination_by MAX_RESULTS - acc.length
decreasing_by
  simp only [List.length_append, List.length_cons, List.length_nil]
  omega

theorem pagesLoop_spec (pages : List (List Char)) (needle : List Char) (p : ℕ)
    (acc : List PdfSearchResult) (hn : needle.length ≠ 0) :
    pagesLoop pages needle p acc =
      acc ++ ((occsFrom pages needle p).take (MAX_RESULTS - acc.length)).map
        (mkFromOcc pages needle.length) := by
  rw [pagesLoop_eq, occsFrom_eq]
  by_cases hp : pages.length < p
  · rw [if_pos hp, if_pos hp]
    simp
  · rw [if_neg hp, if_neg hp]
    rw [scanPage_spec p (pages.getD (p - 1) []) needle acc 0 hn]
    set L := occurrencesFrom (toLowerStr (pages.getD (p - 1) [])) needle 0 with hL
    by_cases hcap : MAX_RESULTS ≤ (acc ++ (L.take (MAX_RESULTS - acc.length)).map
        (fun i => mkResult p (pages.getD (p - 1) []) i (i + needle.length))).length
    · rw [if_pos hcap]
      have hlen1 : MAX_RESULTS - acc.length ≤ L.length := by
        simp only [List.length_append, List.length_map, List.length_take] at hcap
        omega
      rw [List.take_append_eq_append_take, List.length_map]
      rw [show MAX_RESULTS - acc.length - L.length = 0 from by omega,
        List.take_zero, List.append_nil]
      rw [← List.map_take, List.map_map]
      rfl
    · rw [if_neg hcap]
      rw [pagesLoop_spec pages needle (p + 1) _ hn]
      have hlt : L.length < MAX_RESULTS - acc.length := by
        by_contra hge
        push_neg at hge
        apply hcap
        simp only [List.length_append, List.length_map, List.length_take]
        omega
      have htake : L.take (MAX_RESULTS - acc.length) = L :=
        List.take_of_length_le (le_of_lt hlt)
      rw [htake]
      rw [List.take_append_eq_append_take, List.length_map]
      rw [show (L.map fun i => (p, i)).take (MAX_RESULTS - acc.length) =
        L.map fun i => (p, i) from
        List.take_of_length_le (by rw [List.length_map]; omega)]
      rw [show MAX_RESULTS - (acc ++ L.map
          (fun i => mkResult p (pages.getD (p - 1) []) i (i + needle.length))).length =
          MAX_RESULTS - acc.length - L.length from by
        simp only [List.length_append, List.length_map]
        omega]
      rw [List.map_append, ← List.append_assoc, List.map_map]
      rfl
termination_by pages.length + 1 - p
decreasing_by
  omega

theorem occurrencesFrom_mem_ge (hay needle : List Char) (start : ℕ) :
    ∀ j ∈ occurrencesFrom hay needle start, start ≤ j := by
  by_cases h0 : needle.length = 0
  · rw [occurrencesFrom_zero hay start h0]
    simp
  · cases hidx : indexOfFrom hay needle start with
    | none =>
      rw [occurrencesFrom_none h0 hidx]
      simp
    | some i =>
      rw [occurrencesFrom_some h0 hidx]
      intro j hj
      rcases List.mem_cons.mp hj with rfl | hj'
      · exact indexOfFrom_ge hidx
      · have := occurrencesFrom_mem_ge hay needle (i + needle.length) j hj'
        have hge := indexOfFrom_ge hidx
        omega
termination_by hay.length + 1 - start
decreasing_by
  have h1 := indexOfFrom_ge hidx
  have h2 := indexOfFrom_le hidx
  omega

theorem occurrencesFrom_pairwise (hay needle : List Char) (start : ℕ) :
    List.Pairwise (· < ·) (occurrencesFrom hay needle start) := by
  by_cases h0 : needle.length = 0
  · rw [occurrencesFrom_zero hay start h0]
    exact List.Pairwise.nil
  · cases hidx : indexOfFrom hay needle start with
    | none =>
      rw [occurrencesFrom_none h0 hidx]
      exact List.Pairwise.nil
    | some i =>
      rw [occurrencesFrom_some h0 hidx]
      refine List.Pairwise.cons ?_ (occurrencesFrom_pairwise hay needle (i + needle.length))
      intro j hj
      have := occurrencesFrom_mem_ge hay needle (i + needle.length) j hj
      omega
termination_by hay.length + 1 - start
decreasing_by
  have h1 := indexOfFrom_ge hidx
  have h2 := indexOfFrom_le hidx
  omega

theorem occsFrom_mem_page (pages : List (List Char)) (needle : List Char) (p : ℕ) :
    ∀ z ∈ occsFrom pages needle p, p ≤ z.1 := by
  rw [occsFrom_eq]
  by_cases hp : pages.length < p
  · rw [if_pos hp]
    simp
  · rw [if_neg hp]
    intro z hz
    rcases List.mem_append.mp hz with hz | hz
    · obtain ⟨i, -, rfl⟩ := List.mem_map.mp hz
      exact Nat.le_refl _
    · have := occsFrom_mem_page pages needle (p + 1) z hz
      omega
termination_by pages.length + 1 - p
decreasing_by
  omega

theorem occsFrom_pairwise (pages : List (List Char)) (needle : List Char) (p : ℕ) :
    List.Pairwise occLT (occsFrom pages needle p) := by
  rw [occsFrom_eq]
  by_cases hp : pages.length < p
  · rw [if_pos hp]
    exact List.Pairwise.nil
  · rw [if_neg hp]
    rw [List.pairwise_append]
    refine ⟨?_, occsFrom_pairwise pages needle (p + 1), ?_⟩
    · rw [List.pairwise_map]
      refine (occurrencesFrom_pairwise _ needle 0).imp ?_
      intro a b hab
      exact Or.inr ⟨rfl, hab⟩
    · intro a ha b hb
      obtain ⟨i, -, rfl⟩ := List.mem_map.mp ha
      have := occsFrom_mem_page pages needle (p + 1) b hb
      exact Or.inl (by omega)
termination_by pages.length + 1 - p
decreasing_by
  omega

/-- C6: search matching semantics.  For a non-blank query, the completed
search equals the records of the page-ordered list of non-overlapping
occurrences of the lowercased trimmed query in the pages' lowercased
texts (`occsFrom`, the spec-side scan that resumes past the end of each
match), truncated at the 200-entry cap; hence it has at most 200 entries,
and the occurrence list it images is strictly sorted by page then by
match position. -/
theorem searchMatchingSemantics (pages : List (List Char)) (query : List Char)
    (hq : trimChars query ≠ []) :
    pdfSearchRun pages query =
      ((occsFrom pages (toLowerStr (trimChars query)) 1).take MAX_RESULTS).map
        (mkFromOcc pages (toLowerStr (trimChars query)).length) ∧
    (pdfSearchRun pages query).length ≤ MAX_RESULTS ∧
    List.Pairwise occLT ((occsFrom pages (toLowerStr (trimChars query)) 1).take
      MAX_RESULTS) := by
  have hn : (toLowerStr (trimChars query)).length ≠ 0 := by
    unfold toLowerStr
    rw [List.length_map]
    intro hc
    exact hq (List.length_eq_zero.mp hc)
  have h1 : pdfSearchRun pages query =
      pagesLoop pages (toLowerStr (trimChars query)) 1 [] := by
    unfold pdfSearchRun
    rw [if_neg (by simpa [List.isEmpty_iff] using hq)]
  refine ⟨?_, ?_, ?_⟩
  · rw [h1, pagesLoop_spec _ _ _ _ hn]
    simp
  · rw [h1, pagesLoop_spec _ _ _ _ hn]
    simp only [List.nil_append, List.length_map, List.length_take, List.length_nil,
      Nat.sub_zero]
    omega
  · exact List.Pairwise.sublist (List.take_sublist _ _)
      (occsFrom_pairwise pages (toLowerStr (trimChars query)) 1)

/-- Witness for `searchMatchingSemantics`: one page with text `"a"` and
query `"a"` yields the single match at position 0 of page 1. -/
theorem searchMatchingSemantics_witness :
    pdfSearchRun [['a']] ['a'] = [mkResult 1 ['a'] 0 1] := by
  have htl : toLowerStr ['a'] = ['a'] := by decide
  have htr : trimChars ['a'] = ['a'] := by decide
  have hidx0 : indexOfFrom ['a'] ['a'] 0 = some 0 := by
    rw [indexOfFrom_eq, if_neg (by decide), if_pos (by decide)]
  have hidx1 : indexOfFrom ['a'] ['a'] (0 + (['a'] : List Char).length) = none := by
    rw [indexOfFrom_eq, if_pos (by decide)]
  have hocc : occurrencesFrom ['a'] ['a'] 0 = [0] := by
    rw [occurrencesFrom_some (by decide) hidx0, occurrencesFrom_none (by decide) hidx1]
  have hrest : occsFrom [['a']] ['a'] (1 + 1) = [] := by
    rw [occsFrom_eq, if_pos (by norm_num)]
  have hoccs : occsFrom [['a']] ['a'] 1 = [(1, 0)] := by
    rw [occsFrom_eq, if_neg (by norm_num)]
    rw [show ([['a']] : List (List Char)).getD (1 - 1) [] = ['a'] from rfl, htl, hocc,
      hrest]
    rfl
  have h := (searchMatchingSemantics [['a']] ['a'] (by decide)).1
  rw [h, htr, htl, hoccs]
  rfl

/-! ### C4: token-based cancellation -/

theorem runStep_stale {pages : List (List Char)} {needle : List Char}
    {r : RunState} {s : SearchShared} (h : staleCheck r s = true) :
    (runStep pages needle r s).2 = s := by
  unfold runStep
  cases r.pc with
  | finished => rfl
  | awaitText p =>
    dsimp only
    rw [if_pos h, if_pos h, if_pos h]
    split
    · rfl
    · split
      · rfl
      · rfl
  | awaitTick p =>
    dsimp only
    rw [if_pos h, if_pos h]
    split
    · rfl
    · rfl

theorem scanPage_out_of_range {pages : List (List Char)} {p : ℕ}
    (needle : List Char) (acc : List PdfSearchResult)
    (hp : pages.length < p) :
    scanPage p (pages.getD (p - 1) []) needle acc 0 = acc := by
  rw [List.getD_eq_default _ _ (by omega)]
  rw [scanPage_eq]
  rw [if_neg (by simp [toLowerStr])]

theorem mem_pagesLoop_of_mem_acc {pages : List (List Char)} {needle : List Char}
    {p : ℕ} {acc : List PdfSearchResult} {x : PdfSearchResult}
    (hn : needle.length ≠ 0) (hx : x ∈ acc) : x ∈ pagesLoop pages needle p acc := by
  rw [pagesLoop_spec _ _ _ _ hn]
  exact List.mem_append_left _ hx

/-- The resume-point invariant of the new query's run: executing the rest
of the loop from the current resume point with the current local
accumulator yields the full search result. -/
def DogInv (pages : List (List Char)) (needle : List Char) (r : RunState) : Prop :=
  match r.pc with
  | RunPc.awaitText p =>
    pagesLoop pages needle p r.acc = pagesLoop pages needle 1 []
  | RunPc.awaitTick p =>
    (if MAX_RESULTS ≤ r.acc.length ∨ pages.length ≤ p then r.acc
     else pagesLoop pages needle (p + 1) r.acc) = pagesLoop pages needle 1 []
  | RunPc.finished => True

/-- System invariant for the cat-then-immediately-dog scenario. -/
def SearchInv (pages : List (List Char)) (needleDog : List Char)
    (st : CatDogState) : Prop :=
  st.shared.token = 2 ∧ st.cat.canceled = true ∧
  st.dog.activeToken = 2 ∧ st.dog.canceled = false ∧
  DogInv pages needleDog st.dog ∧
  ∀ x ∈ st.shared.results, x ∈ pagesLoop pages needleDog 1 []

theorem searchInv_init (pages : List (List Char)) (needleDog : List Char) :
    SearchInv pages needleDog catDogInit := by
  refine ⟨rfl, rfl, rfl, rfl, ?_, by simp [catDogInit]⟩
  unfold DogInv catDogInit
  rfl

theorem runStep_const (pages : List (List Char)) (needle : List Char)
    (r : RunState) (s : SearchShared) :
    (runStep pages needle r s).1.canceled = r.canceled ∧
    (runStep pages needle r s).1.activeToken = r.activeToken := by
  unfold runStep
  cases r.pc with
  | finished => exact ⟨rfl, rfl⟩
  | awaitText p =>
    dsimp only
    split
    · split <;> exact ⟨rfl, rfl⟩
    · split
      · split <;> exact ⟨rfl, rfl⟩
      · split <;> exact ⟨rfl, rfl⟩
  | awaitTick p =>
    dsimp only
    split
    · split <;> exact ⟨rfl, rfl⟩
    · split <;> exact ⟨rfl, rfl⟩

theorem searchInv_cat_step (pages : List (List Char)) (needleCat needleDog : List Char)
    (st : CatDogState) (hinv : SearchInv pages needleDog st) :
    SearchInv pages needleDog (catStep pages needleCat st) ∧
      (catStep pages needleCat st).shared = st.shared := by
  obtain ⟨htok, hcanc, hdtok, hdcanc, hdinv, hres⟩ := hinv
  have hstale : staleCheck st.cat st.shared = true := by
    unfold staleCheck
    rw [hcanc]
    rfl
  have hsh : (runStep pages needleCat st.cat st.shared).2 = st.shared :=
    runStep_stale hstale
  have hconst := runStep_const pages needleCat st.cat st.shared
  unfold catStep
  dsimp only
  rw [hsh]
  exact ⟨⟨htok, by rw [hconst.1, hcanc], hdtok, hdcanc, hdinv, hres⟩, rfl⟩

theorem searchInv_dog_step (pages : List (List Char)) (needleDog : List Char)
    (hn : needleDog.length ≠ 0) (st : CatDogState)
    (hinv : SearchInv pages needleDog st) :
    SearchInv pages needleDog (dogStep pages needleDog st) := by
  obtain ⟨htok, hcanc, hdtok, hdcanc, hdinv, hres⟩ := hinv
  have hfresh : ¬ staleCheck st.dog st.shared = true := by
    unfold staleCheck
    rw [hdcanc, htok, hdtok]
    simp
  unfold dogStep
  dsimp only
  unfold runStep
  cases hpc : st.dog.pc with
  | finished =>
    dsimp only
    exact ⟨htok, hcanc, hdtok, hdcanc, hdinv, hres⟩
  | awaitText p =>
    have hdinv2 : pagesLoop pages needleDog p st.dog.acc =
        pagesLoop pages needleDog 1 [] := by
      unfold DogInv at hdinv
      rw [hpc] at hdinv
      exact hdinv
    have hunf := pagesLoop_eq pages needleDog p st.dog.acc
    dsimp only
    by_cases hbatch : p % PAGE_BATCH_SIZE = 0 ∨
        MAX_RESULTS ≤ (scanPage p (pages.getD (p - 1) []) needleDog st.dog.acc 0).length
    · rw [if_pos hbatch, if_neg hfresh]
      refine ⟨htok, hcanc, hdtok, hdcanc, ?_, ?_⟩
      · unfold DogInv
        dsimp only
        by_cases hout : pages.length < p
        · rw [if_pos (Or.inr (le_of_lt hout))]
          rw [scanPage_out_of_range needleDog st.dog.acc hout]
          rw [if_pos hout] at hunf
          rw [← hunf]
          exact hdinv2
        · rw [if_neg hout] at hunf
          by_cases hcap : MAX_RESULTS ≤
              (scanPage p (pages.getD (p - 1) []) needleDog st.dog.acc 0).length
          · rw [if_pos (Or.inl hcap)]
            rw [if_pos hcap] at hunf
            rw [← hunf]
            exact hdinv2
          · rw [if_neg hcap] at hunf
            by_cases hNp : pages.length ≤ p
            · rw [if_pos (Or.inr hNp)]
              have hp2 : pages.length < p + 1 := by omega
              have hstop : pagesLoop pages needleDog (p + 1)
                  (scanPage p (pages.getD (p - 1) []) needleDog st.dog.acc 0) =
                  scanPage p (pages.getD (p - 1) []) needleDog st.dog.acc 0 := by
                rw [pagesLoop_eq, if_pos hp2]
              rw [hstop] at hunf
              rw [← hunf]
              exact hdinv2
            · rw [if_neg (by push_neg; exact ⟨by omega, by omega⟩)]
              rw [← hunf]
              exact hdinv2
      · intro x hx
        dsimp only at hx
        by_cases hout : pages.length < p
        · rw [scanPage_out_of_range needleDog st.dog.acc hout] at hx
          rw [if_pos hout] at hunf
          rw [← hdinv2, hunf]
          exact hx
        · rw [if_neg hout] at hunf
          by_cases hcap : MAX_RESULTS ≤
              (scanPage p (pages.getD (p - 1) []) needleDog st.dog.acc 0).length
          · rw [if_pos hcap] at hunf
            rw [← hdinv2, hunf]
            exact hx
          · rw [if_neg hcap] at hunf
            rw [← hdinv2, hunf]
            exact mem_pagesLoop_of_mem_acc hn hx
    · rw [if_neg hbatch]
      by_cases hNp : pages.length ≤ p
      · rw [if_pos hNp, if_neg hfresh]
        refine ⟨htok, hcanc, hdtok, hdcanc, by unfold DogInv; exact trivial, ?_⟩
        intro x hx
        dsimp only at hx
        by_cases hout : pages.length < p
        · rw [scanPage_out_of_range needleDog st.dog.acc hout] at hx
          rw [if_pos hout] at hunf
          rw [← hdinv2, hunf]
          exact hx
        · push_neg at hbatch
          rw [if_neg hout, if_neg (by omega)] at hunf
          have hp2 : pages.length < p + 1 := by omega
          have hstop : pagesLoop pages needleDog (p + 1)
              (scanPage p (pages.getD (p - 1) []) needleDog st.dog.acc 0) =
              scanPage p (pages.getD (p - 1) []) needleDog st.dog.acc 0 := by
            rw [pagesLoop_eq, if_pos hp2]
          rw [hstop] at hunf
          rw [← hdinv2, hunf]
          exact hx
      · rw [if_neg hNp, if_neg hfresh]
        refine ⟨htok, hcanc, hdtok, hdcanc, ?_, hres⟩
        unfold DogInv
        dsimp only
        push_neg at hbatch
        rw [if_neg (by omega), if_neg (by omega)] at hunf
        rw [← hunf]
        exact hdinv2
  | awaitTick p =>
    have hdinv2 : (if MAX_RESULTS ≤ st.dog.acc.length ∨ pages.length ≤ p then st.dog.acc
        else pagesLoop pages needleDog (p + 1) st.dog.acc) =
        pagesLoop pages needleDog 1 [] := by
      unfold DogInv at hdinv
      rw [hpc] at hdinv
      exact hdinv
    dsimp only
    by_cases hend : MAX_RESULTS ≤ st.dog.acc.length ∨ pages.length ≤ p
    · rw [if_pos hend, if_neg hfresh]
      rw [if_pos hend] at hdinv2
      refine ⟨htok, hcanc, hdtok, hdcanc, by unfold DogInv; exact trivial, ?_⟩
      intro x hx
      dsimp only at hx
      rw [← hdinv2]
      exact hx
    · rw [if_neg hend, if_neg hfresh]
      rw [if_neg hend] at hdinv2
      refine ⟨htok, hcanc, hdtok, hdcanc, ?_, hres⟩
      unfold DogInv
      dsimp only
      exact hdinv2

theorem searchInv_reachable (pages : List (List Char))
    (needleCat needleDog : List Char) (hn : needleDog.length ≠ 0)
    (st : CatDogState) (hreach : CatDogReachable pages needleCat needleDog st) :
    SearchInv pages needleDog st := by
  induction hreach with
  | refl => exact searchInv_init pages needleDog
  | tail hab hbc ih =>
    cases hbc with
    | cat => exact (searchInv_cat_step pages needleCat needleDog _ ih).1
    | dog => exact searchInv_dog_step pages needleDog hn _ ih

/-- C4: Token-based search cancellation.  In the model of the search effect
(`usePdfSearch`), the "cat" run is superseded: its cleanup set its `canceled`
flag and the shared token was bumped to the "dog" run's token.  In every state
reachable by interleaving the two runs from that point, resuming the stale
"cat" run leaves the shared results and searching state completely unchanged
(every write is guarded by a token/cancel re-check), and every entry of the
shared result list is a result of the "dog" query's search
(`pagesLoop pages needleDog 1 []`) - so the list never contains "cat" matches. -/
theorem searchCancellation (pages : List (List Char))
    (needleCat needleDog : List Char) (hn : needleDog.length ≠ 0)
    (st : CatDogState) (hreach : CatDogReachable pages needleCat needleDog st) :
    (catStep pages needleCat st).shared = st.shared ∧
      ∀ x ∈ st.shared.results, x ∈ pagesLoop pages needleDog 1 [] := by
  have hinv := searchInv_reachable pages needleCat needleDog hn st hreach
  exact ⟨(searchInv_cat_step pages needleCat needleDog st hinv).2,
    hinv.2.2.2.2.2⟩

theorem searchCancellation_witness :
    (catStep [['c', 'a', 't']] ['c', 'a', 't'] catDogInit).shared =
        catDogInit.shared ∧
      ∀ x ∈ catDogInit.shared.results,
        x ∈ pagesLoop [['c', 'a', 't']] ['d', 'o', 'g'] 1 [] :=
  searchCancellation [['c', 'a', 't']] ['c', 'a', 't'] ['d', 'o', 'g']
    (by decide) catDogInit Relation.ReflTransGen.refl
